import Mathlib

/-! VDT fast math (`DataFormats/Math/interface/VDTMath.h`).

A shallow embedding of the scalar routines of the VDT header: the bit
reinterpretation helpers `ll2d` / `d2ll`, `fast_exp` and `fast_log`.

The C++ type `double` is IEEE-754 binary64.  A value of that type is modelled by
its three fields (sign, 11-bit biased exponent, 52-bit fraction), and arithmetic
is the correctly rounded (round-to-nearest, ties-to-even) arithmetic of the
format, every operation rounded on its own (no fused multiply-add, no extended
precision).  Exact intermediate results are kept as integers counted in units of
`2^-1074`, the smallest positive binary64 value: every finite binary64 number is
an integer number of such units.

Where C++ leaves the behaviour open the model follows x86-64: a conversion of an
out-of-range `double` to `int` yields `-2^31`, `int` addition and the left shift
of a `long long` wrap around, and the union of the header reads back the bytes
that were written.  A NaN produced by an operation is the default quiet NaN.
The decimal literals of the header denote the nearest `double`.
-/

namespace vdt

/-! ## The binary64 format -/

/-- An IEEE-754 binary64 datum: sign bit, biased exponent field, fraction field. -/
structure Double where
  sign : Bool
  expo : Nat
  mant : Nat
  expo_lt : expo < 2048
  mant_lt : mant < 2 ^ 52
deriving DecidableEq

namespace Double

/-- Build a datum from a sign and the 63 low bits (exponent and fraction). -/
def ofMag (s : Bool) (b : Nat) : Double :=
  ⟨s, (b / 2 ^ 52) % 2048, b % 2 ^ 52, Nat.mod_lt _ (by decide), Nat.mod_lt _ (by decide)⟩

/-- The exponent and fraction bits of an infinity. -/
def infBits : Nat := 2047 * 2 ^ 52

def isNaN (d : Double) : Bool := d.expo == 2047 && d.mant != 0

def isInf (d : Double) : Bool := d.expo == 2047 && d.mant == 0

def isFinite (d : Double) : Bool := d.expo != 2047

/-- The quiet NaN produced by an invalid operation. -/
def nan : Double := ofMag true (2047 * 2 ^ 52 + 2 ^ 51)

def inf : Double := ofMag false infBits

def zero : Double := ofMag false 0

/-- The power `2^n`. -/
def pow2 (n : Nat) : Nat := 2 ^ n

/-- The number of units `2^-1074` that make up `1.0`. -/
def scale1 : Nat := pow2 1074

/-- Magnitude in units of `2^-1074`.  For the exponent field 2047 the formula
yields `2^2098`, above every finite magnitude, which is what comparisons use for
an infinity. -/
def umag (d : Double) : Nat :=
  if d.expo = 0 then d.mant else (2 ^ 52 + d.mant) * 2 ^ (d.expo - 1)

/-- Signed value in units of `2^-1074`. -/
def sval (d : Double) : Int := if d.sign then -(d.umag : Int) else (d.umag : Int)

/-- The rational number denoted by a finite datum. -/
def toRat (d : Double) : ℚ := (d.sval : ℚ) / (scale1 : ℚ)

/-- Round half to even of the quotient `n / D`. -/
def rne (n D : Nat) : Nat :=
  let q := n / D
  let r := n % D
  if 2 * r < D then q else if D < 2 * r then q + 1 else q + q % 2

/-- One step of the search for the binade: keep the candidate shift `s` when `k`
is below `2^(52 + s + step)`, otherwise advance it by `step`. -/
def shiftStep (k s step : Nat) : Nat := if k < 2 ^ (52 + s + step) then s else s + step

/-- The binade shift of a magnitude whose integer part is `k` units: values below
`2^53` units are spaced one unit apart, and the spacing doubles with each binade.
This is the least `s` with `k < 2^(53 + s)`, found by bisection; the count stops
at 2047, from where on every magnitude rounds to infinity. -/
def shiftOf (k : Nat) : Nat :=
  [1024, 512, 256, 128, 64, 32, 16, 8, 4, 2, 1].foldl (shiftStep k) 0

/-- Round the non-negative magnitude `n / d` (in units of `2^-1074`) to the
nearest binary64 magnitude, ties to even, overflowing to infinity.  The result is
given as exponent and fraction bits. -/
def roundMag (n d : Nat) : Nat :=
  let s := shiftOf (n / d)
  min (s * 2 ^ 52 + rne n (d * 2 ^ s)) infBits

/-- Correctly rounded datum for the signed magnitude `n / d` units. -/
def round (s : Bool) (n d : Nat) : Double := ofMag s (roundMag n d)

def neg (a : Double) : Double := ⟨!a.sign, a.expo, a.mant, a.expo_lt, a.mant_lt⟩

/-- IEEE multiplication. -/
def mul (a b : Double) : Double :=
  if a.isNaN || b.isNaN then nan
  else if a.isInf || b.isInf then
    (if a.umag = 0 ∨ b.umag = 0 then nan else ofMag (xor a.sign b.sign) infBits)
  else round (xor a.sign b.sign) (a.umag * b.umag) scale1

/-- IEEE addition. -/
def add (a b : Double) : Double :=
  if a.isNaN || b.isNaN then nan
  else if a.isInf then (if b.isInf && (a.sign != b.sign) then nan else a)
  else if b.isInf then b
  else
    let s := a.sval + b.sval
    if s = 0 then ofMag (a.sign && b.sign) 0
    else round (decide (s < 0)) s.natAbs 1

def sub (a b : Double) : Double := add a (neg b)

/-- IEEE division. -/
def div (a b : Double) : Double :=
  if a.isNaN || b.isNaN then nan
  else if a.isInf then (if b.isInf then nan else ofMag (xor a.sign b.sign) infBits)
  else if b.isInf then ofMag (xor a.sign b.sign) 0
  else if b.umag = 0 then
    (if a.umag = 0 then nan else ofMag (xor a.sign b.sign) infBits)
  else round (xor a.sign b.sign) (a.umag * scale1) b.umag

/-- The comparison `a < b` of C++; false as soon as an operand is a NaN. -/
def lt (a b : Double) : Bool := !a.isNaN && !b.isNaN && decide (a.sval < b.sval)

/-- The comparison `a > b` of C++. -/
def gt (a b : Double) : Bool := lt b a

/-- The comparison `a <= b` of C++. -/
def le (a b : Double) : Bool := !a.isNaN && !b.isNaN && decide (a.sval ≤ b.sval)

/-- The value of a decimal literal `num / den`, rounded to nearest. -/
def lit (num den : Nat) : Double := round false (num * scale1) den

/-- Conversion of an integer to `double` (rounded to nearest). -/
def ofInt (i : Int) : Double := round (decide (i < 0)) (i.natAbs * scale1) 1

/-- Conversion `double` to `int` when it is defined: the value truncated toward
zero, provided that fits a 32-bit `int`. -/
def truncInt (d : Double) : Option Int :=
  if d.isFinite then
    let t : Int := if d.sign then -((d.umag / scale1 : Nat) : Int) else ((d.umag / scale1 : Nat) : Int)
    if -2 ^ 31 ≤ t ∧ t < 2 ^ 31 then some t else none
  else none

/-- Conversion `double` to `int` as the `cvttsd2si` instruction performs it: where
the truncated value does not fit, the result is the "integer indefinite"
`-2^31`. -/
def toInt (d : Double) : Int := (truncInt d).getD (-2 ^ 31)

end Double

open Double

/-! ## Constants of the header -/

/-- The literal `0.5`. -/
def half : Double := lit 5 10

/-- The literal `1.0`. -/
def one : Double := lit 1 1

/-- The literal `2.0`. -/
def two : Double := lit 2 1

def LOG2E : Double := lit 14426950408889634073599 (10 ^ 22)
def SQRTH : Double := lit 70710678118654752440 (10 ^ 20)

def EXP_LIMIT : Double := lit 708 1
def PX1exp : Double := lit 126177193074810590878 (10 ^ 24)
def PX2exp : Double := lit 302994407707441961300 (10 ^ 22)
def PX3exp : Double := lit 999999999999999999910 (10 ^ 21)
def QX1exp : Double := lit 300198505138664455042 (10 ^ 26)
def QX2exp : Double := lit 252448340349684104192 (10 ^ 23)
def QX3exp : Double := lit 227265548208155028766 (10 ^ 21)
def QX4exp : Double := lit 200000000000000000009 (10 ^ 20)

def LOG_UPPER_LIMIT : Double := lit (5 * 10 ^ 307) 1
def LOG_LOWER_LIMIT : Double := lit 5 (10 ^ 307)
def PX1log : Double := lit 101875663804580931796 (10 ^ 24)
def PX2log : Double := lit 497494994976747001425 (10 ^ 21)
def PX3log : Double := lit 470579119878881725854 (10 ^ 20)
def PX4log : Double := lit 144989225341610930846 (10 ^ 19)
def PX5log : Double := lit 179368678507819816313 (10 ^ 19)
def PX6log : Double := lit 770838733755885391666 (10 ^ 20)

def QX1log : Double := lit 112873587189167450590 (10 ^ 19)
def QX2log : Double := lit 452279145837532221105 (10 ^ 19)
def QX3log : Double := lit 829875266912776603211 (10 ^ 19)
def QX4log : Double := lit 711544750618563894466 (10 ^ 19)
def QX5log : Double := lit 231251620126765340583 (10 ^ 19)

/-! ## Bit reinterpretation -/

/-- The function `ll2d`: the double whose binary64 encoding is the 64-bit integer `x`
(bit 63 the sign, bits 62..52 the exponent field, bits 51..0 the fraction). -/
def ll2d (x : Nat) : Double :=
  ⟨(x / 2 ^ 63) % 2 == 1, (x / 2 ^ 52) % 2048, x % 2 ^ 52,
    Nat.mod_lt _ (by decide), Nat.mod_lt _ (by decide)⟩

/-- The function `d2ll`: the 64-bit integer that is the binary64 encoding of `x`. -/
def d2ll (x : Double) : Nat :=
  (if x.sign then 2 ^ 63 else 0) + x.expo * 2 ^ 52 + x.mant

/-! ## `fast_exp` -/

/-- The value stored by `px = int(LOG2E * x + 0.5)`. -/
def fast_exp_px (x : Double) : Double := ofInt (toInt (add (mul LOG2E x) half))

/-- The integer stored by `n = px`. -/
def fast_exp_n (x : Double) : Int := toInt (fast_exp_px x)

/-- The reduced argument, after the two subtractions of `px` times the split
constant. -/
def fast_exp_reduce (x : Double) : Double :=
  let px := fast_exp_px x
  let x := sub x (mul px (lit 693145751953125 (10 ^ 15)))
  let x := sub x (mul px (lit 142860682030941723212 (10 ^ 26)))
  x

/-- The rational term `px / (qx - px)` for the reduced argument `x`. -/
def fast_exp_ratio (x : Double) : Double :=
  let xx := mul x x
  let px := PX1exp
  let px := mul px xx
  let px := add px PX2exp
  let px := mul px xx
  let px := add px PX3exp
  let px := mul px x
  let qx := QX1exp
  let qx := mul qx xx
  let qx := add qx QX2exp
  let qx := mul qx xx
  let qx := add qx QX3exp
  let qx := mul qx xx
  let qx := add qx QX4exp
  div px (sub qx px)

/-- Addition `n + 1023` of the 32-bit `int` (two's complement). -/
def addBias (n : Int) : Int := (n + 1023 + 2 ^ 31) % 2 ^ 32 - 2 ^ 31

/-- The 64-bit pattern `(long long)(n) << 52` for the biased `n`. -/
def scaleBits (n : Int) : Nat := ((n % 2 ^ 64).toNat * 2 ^ 52) % 2 ^ 64

/-- The scale factor: `n += 1023; u.ll = (long long)(n) << 52;` read back as
`u.d`. -/
def fast_exp_scale (n : Int) : Double := ll2d (scaleBits (addBias n))

def fast_exp (x : Double) : Double :=
  let initial_x := x
  let n := fast_exp_n x
  let x := fast_exp_reduce x
  let x := fast_exp_ratio x
  let x := add one (mul two x)
  let u := fast_exp_scale n
  let res := mul x u
  let res := if gt initial_x EXP_LIMIT then inf else res
  let res := if lt initial_x (neg EXP_LIMIT) then zero else res
  res

/-! ## `fast_log` -/

/-- The exponent field `le = (n >> 52) & 0x7ff`. -/
def fast_log_le (x : Double) : Nat := (d2ll x >>> 52) &&& 0x7ff

/-- The value stored by `double fe = (le-1023)`: the subtraction is done in
`unsigned long long`, modulo `2^64`, and its result converted to `double`. -/
def fast_log_fe (x : Double) : Double :=
  round false (((fast_log_le x + (2 ^ 64 - 1023)) % 2 ^ 64) * scale1) 1

/-- The fraction of `x` under the exponent of `0.5`:
`n &= 0xfffffffffffff; n |= d2ll(0.5); x = ll2d(n)`. -/
def fast_log_frac (x : Double) : Double :=
  ll2d ((d2ll x &&& 0xfffffffffffff) ||| d2ll half)

/-- The blend step, from the exponent value `fe` and the fraction `x`, up to and
including `x = x - 1.0`. -/
def fast_log_blend (fe x : Double) : Double × Double :=
  let fe := if gt x SQRTH then add fe one else fe
  let x := if lt x SQRTH then add x x else x
  let x := sub x one
  (fe, x)

/-- The rational form: the value of `y` after `y -= 0.5 * z`, from the blended
`fe` and `x`. -/
def fast_log_y (fe x : Double) : Double :=
  let z := mul x x
  let px := PX1log
  let px := mul px x
  let px := add px PX2log
  let px := mul px x
  let px := add px PX3log
  let px := mul px x
  let px := add px PX4log
  let px := mul px x
  let px := add px PX5log
  let px := mul px x
  let px := add px PX6log
  let px := mul px x
  let px := mul px z
  let qx := x
  let qx := add qx QX1log
  let qx := mul qx x
  let qx := add qx QX2log
  let qx := mul qx x
  let qx := add qx QX3log
  let qx := mul qx x
  let qx := add qx QX4log
  let qx := mul qx x
  let qx := add qx QX5log
  let y := div px qx
  let y := sub y (mul fe (lit 2121944400546905827679 (10 ^ 25)))
  let y := sub y (mul half z)
  y

/-- The final sum `z = x + y; z += fe * 0.693359375`. -/
def fast_log_sum (fe x : Double) : Double :=
  let y := fast_log_y fe x
  let z := add x y
  let z := add z (mul fe (lit 693359375 (10 ^ 9)))
  z

def fast_log (x : Double) : Double :=
  let input_x := x
  let fe := fast_log_fe x
  let x := fast_log_frac x
  let b := fast_log_blend fe x
  let z := fast_log_sum b.1 b.2
  let z := if gt input_x LOG_UPPER_LIMIT then inf else z
  let z := if lt input_x LOG_LOWER_LIMIT then neg inf else z
  z

/-- Short way to write a datum from its fields. -/
def mk (s : Bool) (e m : Nat) : Double := ofMag s (e * 2 ^ 52 + m)

/-! ## Auxiliary quantities of the proofs -/

/-- Invariant of the binade search with `R` the sum of the steps still to come. -/
def ShiftInv (k s R : Nat) : Prop :=
  s + R ≤ 2047 ∧ (0 < s → 2 ^ (52 + s) ≤ k) ∧ (k < 2 ^ (53 + s + R) ∨ s + R = 2047)

/-- Magnitude, in units of `2^-1074`, denoted by exponent and fraction bits. -/
def umagBits (b : Nat) : Nat :=
  if b / 2 ^ 52 = 0 then b % 2 ^ 52 else (2 ^ 52 + b % 2 ^ 52) * 2 ^ (b / 2 ^ 52 - 1)

/-- The magnitude `2^2098` that the formula of `umag` gives for an infinity. -/
def infMag : Nat := 2 ^ 52 * pow2 2046

/-- Bound on `|LOG2E * x|` for `|x| <= 708`, in units of `2^-1074`. -/
def expProdBound : Nat := umagBits (roundMag (LOG2E.umag * EXP_LIMIT.umag) scale1)

/-- Bound on `|LOG2E * x + 0.5|` for `|x| <= 708`, in units of `2^-1074`. -/
def expSumBound : Nat := umagBits (roundMag (expProdBound + half.umag) 1)

/-! ## Quantities of the error analysis -/

/-- The sign factor of a datum. -/
def sgn (s : Bool) : ℚ := if s then -1 else 1

/-- The datum `d` is finite and approximates the rational `v` within `ε`, where
`v` is at most `A` in magnitude. -/
def Appr (d : Double) (v A ε : ℚ) : Prop := d.expo ≠ 2047 ∧ |d.toRat - v| ≤ ε ∧ |v| ≤ A

/-! ## Exact-arithmetic counterpart of `fast_exp`

The decimal literals of the header as rationals, and the rational function the code
evaluates, in exact arithmetic. -/

/-- The literal of `LOG2E`. -/
def qLOG2E : ℚ := 14426950408889634073599 / 10 ^ 22

/-- The literal `6.93145751953125E-1` of the first subtraction. -/
def qC1 : ℚ := 693145751953125 / 10 ^ 15

/-- The literal `1.42860682030941723212E-6` of the second subtraction. -/
def qC2 : ℚ := 142860682030941723212 / 10 ^ 26

/-- The literal of `PX1exp`. -/
def qPX1 : ℚ := 126177193074810590878 / 10 ^ 24

/-- The literal of `PX2exp`. -/
def qPX2 : ℚ := 302994407707441961300 / 10 ^ 22

/-- The literal of `PX3exp`. -/
def qPX3 : ℚ := 999999999999999999910 / 10 ^ 21

/-- The literal of `QX1exp`. -/
def qQX1 : ℚ := 300198505138664455042 / 10 ^ 26

/-- The literal of `QX2exp`. -/
def qQX2 : ℚ := 252448340349684104192 / 10 ^ 23

/-- The literal of `QX3exp`. -/
def qQX3 : ℚ := 227265548208155028766 / 10 ^ 21

/-- The literal of `QX4exp`. -/
def qQX4 : ℚ := 200000000000000000009 / 10 ^ 20

/-- The numerator polynomial `P` of the header, in `w = x^2`. -/
def expP (w : ℚ) : ℚ := (qPX1 * w + qPX2) * w + qPX3

/-- The denominator polynomial `Q` of the header, in `w = x^2`. -/
def expQ (w : ℚ) : ℚ := ((qQX1 * w + qQX2) * w + qQX3) * w + qQX4

/-- The value `1 + 2 * (x P(x^2) / (Q(x^2) - x P(x^2)))` computed by `fast_exp`
for the reduced argument, in exact arithmetic. -/
def expF (v : ℚ) : ℚ := 1 + 2 * (expP (v * v) * v / (expQ (v * v) - expP (v * v) * v))

/-- Value at `v` of the polynomial with coefficient list `cs`, lowest degree
first. -/
def peval (cs : List ℚ) (v : ℚ) : ℚ := cs.foldr (fun c acc => c + v * acc) 0

/-- Sum of two coefficient lists. -/
def padd : List ℚ → List ℚ → List ℚ
  | [], bs => bs
  | a :: as, [] => a :: as
  | a :: as, b :: bs => (a + b) :: padd as bs

/-- A coefficient list times a constant. -/
def pscale (c : ℚ) (as : List ℚ) : List ℚ := as.map (fun a => c * a)

/-- Product of two coefficient lists. -/
def pmul : List ℚ → List ℚ → List ℚ
  | [], _ => []
  | a :: as, bs => padd (pscale a bs) (0 :: pmul as bs)

/-- Coefficients `1/m!` of the Taylor polynomial of the exponential, for the
degrees `k`, `k+1`, ... (`n` of them). -/
def tayFrom : Nat → Nat → List ℚ
  | _, 0 => []
  | k, n + 1 => (1 / (k.factorial : ℚ)) :: tayFrom (k + 1) n

/-- The Taylor polynomial of degree 15 of the exponential. -/
def expT (v : ℚ) : ℚ := peval (tayFrom 0 16) v

/-- Coefficients in `v` of `Q(v^2) + v P(v^2)`. -/
def expNs : List ℚ := [qQX4, qPX3, qQX3, qPX2, qQX2, qPX1, qQX1]

/-- Coefficients in `v` of `Q(v^2) - v P(v^2)`. -/
def expDs : List ℚ := [qQX4, -qPX3, qQX3, -qPX2, qQX2, -qPX1, qQX1]

/-- Coefficients of the residual `N - T * D`. -/
def expRs : List ℚ := padd expNs (pscale (-1) (pmul (tayFrom 0 16) expDs))

/-- Partial sum `sum_{k < n} (1/2)^(k+1) / (k+1)` of the series of `log 2`. -/
def halfLogSum : Nat → ℚ
  | 0 => 0
  | n + 1 => halfLogSum n + (1 / 2) ^ (n + 1) / ((n : ℚ) + 1)

/-! ## The unit scale -/

theorem pow2_pos (n : Nat) : 0 < pow2 n := Nat.two_pow_pos n

theorem pow_dvd_pow2 {j n : Nat} (h : j ≤ n) : 2 ^ j ∣ pow2 n := Nat.pow_dvd_pow 2 h

theorem pow_mul_pow2 (a n : Nat) : 2 ^ a * pow2 n = 2 ^ (a + n) := by
  rw [pow2, Nat.pow_add]

theorem scale1_pos : 0 < scale1 := pow2_pos 1074

theorem pow_dvd_scale1 {j : Nat} (h : j ≤ 1074) : 2 ^ j ∣ scale1 := pow_dvd_pow2 h

theorem pow_mul_scale1 (a : Nat) : 2 ^ a * scale1 = 2 ^ (a + 1074) := pow_mul_pow2 a 1074

/-! ## Bit reinterpretation round trip -/

theorem ll2d_d2ll (d : Double) : ll2d (d2ll d) = d := by
  obtain ⟨s, e, m, he, hm⟩ := d
  have h52 : (2:Nat) ^ 52 = 4503599627370496 := by norm_num
  have h63 : (2:Nat) ^ 63 = 9223372036854775808 := by norm_num
  rw [h52] at hm
  cases s <;> simp only [ll2d, d2ll, h52, h63, Double.mk.injEq] <;> refine ⟨?_, ?_, ?_⟩ <;>
    first | omega | (simp; omega)

theorem d2ll_ll2d (b : Nat) : d2ll (ll2d b) = b % 2 ^ 64 := by
  have h52 : (2:Nat) ^ 52 = 4503599627370496 := by norm_num
  have h63 : (2:Nat) ^ 63 = 9223372036854775808 := by norm_num
  have h64 : (2:Nat) ^ 64 = 18446744073709551616 := by norm_num
  simp only [ll2d, d2ll, h52, h63, h64]
  by_cases h : b / 9223372036854775808 % 2 = 1
  · simp [h]; omega
  · simp [h]; omega

/-- C3. The reinterpretation is lossless both ways: `ll2d (d2ll d)` is `d` for
every datum, NaN and infinity patterns included, and `d2ll (ll2d b)` is `b` for
every 64-bit integer `b`. -/
theorem ll2d_d2ll_roundtrip :
    (∀ d : Double, ll2d (d2ll d) = d) ∧ (∀ b : Nat, b < 2 ^ 64 → d2ll (ll2d b) = b) :=
  ⟨ll2d_d2ll, fun b hb => by rw [d2ll_ll2d, Nat.mod_eq_of_lt hb]⟩

theorem ll2d_d2ll_roundtrip_witness :
    ll2d (d2ll nan) = nan ∧ ll2d (d2ll (neg inf)) = neg inf ∧
      d2ll (ll2d 0x7ff0000000000001) = 0x7ff0000000000001 :=
  ⟨ll2d_d2ll_roundtrip.1 nan, ll2d_d2ll_roundtrip.1 (neg inf),
    ll2d_d2ll_roundtrip.2 0x7ff0000000000001 (by decide)⟩

/-! ## Saturation -/

theorem lt_iff (a b : Double) :
    lt a b = true ↔ a.isNaN = false ∧ b.isNaN = false ∧ a.sval < b.sval := by
  simp [lt, and_assoc]

theorem sval_neg_EXP_LIMIT_le : (neg EXP_LIMIT).sval ≤ EXP_LIMIT.sval := by decide!

theorem sval_LOG_LOWER_le_UPPER : LOG_LOWER_LIMIT.sval ≤ LOG_UPPER_LIMIT.sval := by decide!

theorem sval_LOG_LOWER_pos : 0 < LOG_LOWER_LIMIT.sval := by decide!

theorem LOG_LOWER_not_nan : LOG_LOWER_LIMIT.isNaN = false := by decide!

/-- C1. `fast_exp` saturates on its original argument: above `EXP_LIMIT` (708) the
result is `+infinity`, below `-EXP_LIMIT` it is `+0.0`, whatever the polynomial
and the scale factor came to. -/
theorem fast_exp_saturates (x : Double) :
    (gt x EXP_LIMIT = true → fast_exp x = inf) ∧
      (lt x (neg EXP_LIMIT) = true → fast_exp x = zero) := by
  constructor
  · intro h
    have h2 : lt x (neg EXP_LIMIT) = false := by
      rw [Bool.eq_false_iff]
      intro h3
      rw [gt, lt_iff] at h
      rw [lt_iff] at h3
      have := sval_neg_EXP_LIMIT_le
      omega
    simp only [fast_exp, h, h2, if_true]
    rfl
  · intro h
    simp only [fast_exp, h, if_true]

theorem fast_exp_saturates_witness :
    fast_exp (lit 709 1) = inf ∧ fast_exp inf = inf ∧
      fast_exp (neg (lit 709 1)) = zero ∧ fast_exp (neg inf) = zero :=
  ⟨(fast_exp_saturates (lit 709 1)).1 (by decide!), (fast_exp_saturates inf).1 (by decide!),
    (fast_exp_saturates (neg (lit 709 1))).2 (by decide!),
    (fast_exp_saturates (neg inf)).2 (by decide!)⟩

/-- A negative datum that is not a NaN compares below `LOG_LOWER_LIMIT`. -/
theorem lt_LOG_LOWER_of_sign (x : Double) (hs : x.sign = true) (hn : x.isNaN = false) :
    lt x LOG_LOWER_LIMIT = true := by
  rw [lt_iff]
  refine ⟨hn, LOG_LOWER_not_nan, ?_⟩
  have h1 := sval_LOG_LOWER_pos
  have h2 : x.sval ≤ 0 := by simp [sval, hs]
  omega

/-- C2. `fast_log` saturates on its original argument: above `LOG_UPPER_LIMIT`
(5e307) the result is `+infinity`, below `LOG_LOWER_LIMIT` (5e-307) it is
`-infinity`; the latter covers every negative argument that is not a NaN. -/
theorem fast_log_saturates (x : Double) :
    (gt x LOG_UPPER_LIMIT = true → fast_log x = inf) ∧
      (lt x LOG_LOWER_LIMIT = true → fast_log x = neg inf) ∧
      (x.sign = true → x.isNaN = false → fast_log x = neg inf) := by
  have hlow : lt x LOG_LOWER_LIMIT = true → fast_log x = neg inf := by
    intro h
    simp only [fast_log, h, if_true]
  refine ⟨?_, hlow, fun hs hn => hlow (lt_LOG_LOWER_of_sign x hs hn)⟩
  intro h
  have h2 : lt x LOG_LOWER_LIMIT = false := by
    rw [Bool.eq_false_iff]
    intro h3
    rw [gt, lt_iff] at h
    rw [lt_iff] at h3
    have := sval_LOG_LOWER_le_UPPER
    omega
  simp only [fast_log, h, h2, if_true]
  rfl

theorem fast_log_saturates_witness :
    fast_log (lit (6 * 10 ^ 307) 1) = inf ∧ fast_log inf = inf ∧
      fast_log (lit 1 (10 ^ 310)) = neg inf ∧ fast_log zero = neg inf ∧
      fast_log (neg one) = neg inf ∧ fast_log (neg inf) = neg inf :=
  ⟨(fast_log_saturates _).1 (by decide!), (fast_log_saturates inf).1 (by decide!),
    (fast_log_saturates _).2.1 (by decide!), (fast_log_saturates zero).2.1 (by decide!),
    (fast_log_saturates (neg one)).2.2 (by decide!) (by decide!),
    (fast_log_saturates (neg inf)).2.2 (by decide!) (by decide!)⟩

/-! ## The scenarios at `0.0` and `1.0` -/

/-- C5. `fast_exp(0.0)` is exactly `1.0`: the range-reduction integer is 0, the
reduced argument is `0.0`, the rational term `px / (qx - px)` is `0.0`, and the
scale factor has exponent field 1023 and is `1.0`. -/
theorem fast_exp_zero :
    fast_exp zero = one ∧ fast_exp_n zero = 0 ∧ fast_exp_reduce zero = zero ∧
      fast_exp_ratio (fast_exp_reduce zero) = zero ∧
      (fast_exp_scale (fast_exp_n zero)).expo = 1023 ∧
      fast_exp_scale (fast_exp_n zero) = one := by
  decide!

/-- C6. `fast_log(1.0)` is exactly `0.0`: the exponent field is 1023 and the
exponent value `0.0`, the fraction `0.5` is doubled by the blend step and becomes
`x' = 0.0`, and the three terms `x`, `y` and `fe * 0.693359375` of the final sum
are `0.0`. -/
theorem fast_log_one :
    fast_log one = zero ∧ fast_log_le one = 1023 ∧ fast_log_fe one = zero ∧
      fast_log_frac one = half ∧ add half half = one ∧
      fast_log_blend (fast_log_fe one) (fast_log_frac one) = (zero, zero) ∧
      fast_log_y zero zero = zero ∧ mul zero (lit 693359375 (10 ^ 9)) = zero ∧
      fast_log_sum zero zero = zero := by
  decide!

/-! ## Rounding: the binade search -/

theorem shiftStep_inv (k s step R : Nat) (hstep : 0 < step)
    (h : ShiftInv k s (step + R)) (hR : R = step - 1) : ShiftInv k (shiftStep k s step) R := by
  obtain ⟨h1, h2, h3⟩ := h
  unfold shiftStep
  split
  · rename_i hlt
    refine ⟨by omega, h2, Or.inl ?_⟩
    have : 53 + s + R = 52 + s + step := by omega
    rw [this]; exact hlt
  · rename_i hge
    refine ⟨by omega, fun _ => ?_, ?_⟩
    · have : 52 + (s + step) = 52 + s + step := by omega
      rw [this]; exact Nat.le_of_not_lt hge
    · rcases h3 with h3 | h3
      · left
        have : 53 + (s + step) + R = 53 + s + (step + R) := by omega
        rw [this]; exact h3
      · right; omega

theorem shiftOf_spec (k : Nat) :
    shiftOf k ≤ 2047 ∧ (0 < shiftOf k → 2 ^ (52 + shiftOf k) ≤ k) ∧
      (k < 2 ^ (53 + shiftOf k) ∨ shiftOf k = 2047) := by
  have h0 : ShiftInv k 0 (1024 + 1023) := ⟨by omega, by omega, Or.inr rfl⟩
  have h1 := shiftStep_inv k _ 1024 (512 + 511) (by omega) h0 (by omega)
  have h2 := shiftStep_inv k _ 512 (256 + 255) (by omega) h1 (by omega)
  have h3 := shiftStep_inv k _ 256 (128 + 127) (by omega) h2 (by omega)
  have h4 := shiftStep_inv k _ 128 (64 + 63) (by omega) h3 (by omega)
  have h5 := shiftStep_inv k _ 64 (32 + 31) (by omega) h4 (by omega)
  have h6 := shiftStep_inv k _ 32 (16 + 15) (by omega) h5 (by omega)
  have h7 := shiftStep_inv k _ 16 (8 + 7) (by omega) h6 (by omega)
  have h8 := shiftStep_inv k _ 8 (4 + 3) (by omega) h7 (by omega)
  have h9 := shiftStep_inv k _ 4 (2 + 1) (by omega) h8 (by omega)
  have h10 := shiftStep_inv k _ 2 (1 + 0) (by omega) h9 (by omega)
  have h11 := shiftStep_inv k _ 1 0 (by omega) h10 (by omega)
  have he : shiftOf k = shiftStep k (shiftStep k (shiftStep k (shiftStep k (shiftStep k
      (shiftStep k (shiftStep k (shiftStep k (shiftStep k (shiftStep k (shiftStep k 0 1024)
      512) 256) 128) 64) 32) 16) 8) 4) 2) 1 := by
    simp only [shiftOf, List.foldl]
  rw [← he] at h11
  obtain ⟨a1, a2, a3⟩ := h11
  exact ⟨by omega, a2, by simpa using a3⟩

theorem shiftOf_mono {k k' : Nat} (h : k ≤ k') : shiftOf k ≤ shiftOf k' := by
  obtain ⟨a1, a2, a3⟩ := shiftOf_spec k
  obtain ⟨b1, b2, b3⟩ := shiftOf_spec k'
  by_contra hc
  have hlt : shiftOf k' < shiftOf k := by omega
  have hk := a2 (by omega)
  rcases b3 with b3 | b3
  · have : 2 ^ (53 + shiftOf k') ≤ 2 ^ (52 + shiftOf k) :=
      Nat.pow_le_pow_right (by omega) (by omega)
    omega
  · omega

/-! ## Rounding: monotonicity -/

theorem rne_ge (n D : Nat) : n / D ≤ rne n D := by
  unfold rne
  simp only
  split
  · exact Nat.le_refl _
  · split <;> omega

theorem rne_le (n D : Nat) : rne n D ≤ n / D + 1 := by
  unfold rne
  simp only
  split
  · omega
  · split <;> omega

theorem rne_mono {n n' : Nat} (D : Nat) (h : n ≤ n') : rne n D ≤ rne n' D := by
  have hq : n / D ≤ n' / D := Nat.div_le_div_right h
  rcases Nat.lt_or_ge (n / D) (n' / D) with hlt | hge
  · calc rne n D ≤ n / D + 1 := rne_le n D
      _ ≤ n' / D := hlt
      _ ≤ rne n' D := rne_ge n' D
  · have heq : n / D = n' / D := Nat.le_antisymm hq hge
    have e1 := Nat.div_add_mod n D
    have e2 := Nat.div_add_mod n' D
    rw [heq] at e1
    have hr : n % D ≤ n' % D := by omega
    unfold rne
    simp only [heq]
    split <;> split <;> try omega
    all_goals (split <;> try omega)
    all_goals (split <;> omega)

theorem roundMag_mono {n n' : Nat} (d : Nat) (h : n ≤ n') : roundMag n d ≤ roundMag n' d := by
  unfold roundMag
  simp only
  have hk : n / d ≤ n' / d := Nat.div_le_div_right h
  have hs := shiftOf_mono hk
  obtain ⟨a1, a2, a3⟩ := shiftOf_spec (n / d)
  obtain ⟨b1, b2, b3⟩ := shiftOf_spec (n' / d)
  apply min_le_min_right
  rcases Nat.lt_or_ge (shiftOf (n / d)) (shiftOf (n' / d)) with hlt | hge
  · have hM : rne n (d * 2 ^ shiftOf (n / d)) ≤ 2 ^ 53 := by
      have h1 := rne_le n (d * 2 ^ shiftOf (n / d))
      have h2 : n / (d * 2 ^ shiftOf (n / d)) < 2 ^ 53 := by
        rw [← Nat.div_div_eq_div_mul]
        rw [Nat.div_lt_iff_lt_mul (Nat.two_pow_pos _)]
        rcases a3 with a3 | a3
        · rw [← Nat.pow_add]; exact a3
        · omega
      omega
    have hM' : 2 ^ 52 ≤ rne n' (d * 2 ^ shiftOf (n' / d)) := by
      have h1 := rne_ge n' (d * 2 ^ shiftOf (n' / d))
      have h2 : 2 ^ 52 ≤ n' / (d * 2 ^ shiftOf (n' / d)) := by
        rw [← Nat.div_div_eq_div_mul]
        rw [Nat.le_div_iff_mul_le (Nat.two_pow_pos _)]
        rw [← Nat.pow_add]; exact b2 (by omega)
      omega
    have h3 : (shiftOf (n / d) + 1) * 2 ^ 52 ≤ shiftOf (n' / d) * 2 ^ 52 :=
      Nat.mul_le_mul_right _ hlt
    have h4 : (2:Nat) ^ 53 = 2 ^ 52 + 2 ^ 52 := by norm_num
    rw [Nat.add_mul] at h3
    omega
  · have heq : shiftOf (n / d) = shiftOf (n' / d) := Nat.le_antisymm hs hge
    rw [heq]
    exact Nat.add_le_add_left (rne_mono _ h) _

theorem umag_ofMag (s : Bool) (b : Nat) (hb : b ≤ infBits) : (ofMag s b).umag = umagBits b := by
  have h : b / 2 ^ 52 % 2048 = b / 2 ^ 52 := by
    apply Nat.mod_eq_of_lt
    unfold infBits at hb
    omega
  simp only [umag, ofMag, umagBits, h]

theorem two_pow_binade (j : Nat) : (2 ^ 52 + 2 ^ 52) * 2 ^ j = 2 ^ 52 * 2 ^ (j + 1) := by
  ring

theorem umagBits_mono {b b' : Nat} (h : b ≤ b') : umagBits b ≤ umagBits b' := by
  unfold umagBits
  have he : b / 2 ^ 52 ≤ b' / 2 ^ 52 := Nat.div_le_div_right h
  have hm : b % 2 ^ 52 < 2 ^ 52 := Nat.mod_lt _ (Nat.two_pow_pos _)
  have hm' : b' % 2 ^ 52 < 2 ^ 52 := Nat.mod_lt _ (Nat.two_pow_pos _)
  have e1 := Nat.div_add_mod b (2 ^ 52)
  have e2 := Nat.div_add_mod b' (2 ^ 52)
  rcases Nat.lt_or_ge (b / 2 ^ 52) (b' / 2 ^ 52) with hlt | hge
  · have hne : ¬ b' / 2 ^ 52 = 0 := by omega
    rw [if_neg hne]
    have hbig : 2 ^ 52 * 2 ^ (b / 2 ^ 52) ≤ (2 ^ 52 + b' % 2 ^ 52) * 2 ^ (b' / 2 ^ 52 - 1) := by
      apply Nat.mul_le_mul (by omega)
      exact Nat.pow_le_pow_right (by omega) (by omega)
    split
    · rename_i h0
      rw [h0] at hbig
      omega
    · rename_i h0
      have h1 : (2 ^ 52 + b % 2 ^ 52) * 2 ^ (b / 2 ^ 52 - 1) ≤
          (2 ^ 52 + 2 ^ 52) * 2 ^ (b / 2 ^ 52 - 1) :=
        Nat.mul_le_mul_right _ (by omega)
      have h2 : (2 ^ 52 + 2 ^ 52) * 2 ^ (b / 2 ^ 52 - 1) = 2 ^ 52 * 2 ^ (b / 2 ^ 52) := by
        obtain ⟨j, hj⟩ : ∃ j, b / 2 ^ 52 = j + 1 := ⟨b / 2 ^ 52 - 1, by omega⟩
        rw [hj, Nat.add_sub_cancel]
        exact two_pow_binade j
      omega
  · have heq : b / 2 ^ 52 = b' / 2 ^ 52 := Nat.le_antisymm he hge
    rw [heq] at e1 ⊢
    have hmm : b % 2 ^ 52 ≤ b' % 2 ^ 52 := by omega
    split
    · exact hmm
    · exact Nat.mul_le_mul_right _ (by omega)

/-! ## Rounding: representable magnitudes are kept -/

theorem rne_of_dvd {n D : Nat} (hD : 0 < D) (h : D ∣ n) : rne n D = n / D := by
  unfold rne
  simp only [Nat.mod_eq_zero_of_dvd h, Nat.mul_zero, hD, if_true]

/-- The magnitude denoted by the bits `s * 2^52 + q`, for `q` a 53-bit
significand that is normal as soon as `s` is positive. -/
theorem umagBits_shift (s q : Nat) (hq : q < 2 ^ 53) (hs : 0 < s → 2 ^ 52 ≤ q) :
    umagBits (s * 2 ^ 52 + q) = q * 2 ^ s := by
  have h53 : (2:Nat) ^ 53 = 2 ^ 52 + 2 ^ 52 := by norm_num
  have hpos : 0 < (2:Nat) ^ 52 := Nat.two_pow_pos _
  unfold umagBits
  rcases Nat.lt_or_ge q (2 ^ 52) with hlt | hge
  · have hs0 : s = 0 := by
      by_contra hne
      have := hs (Nat.pos_of_ne_zero hne)
      omega
    subst hs0
    simp only [Nat.zero_mul, Nat.zero_add, Nat.pow_zero, Nat.mul_one]
    rw [Nat.div_eq_of_lt hlt, Nat.mod_eq_of_lt hlt]
    simp
  · have hdiv : (s * 2 ^ 52 + q) / 2 ^ 52 = s + 1 := by
      have : s * 2 ^ 52 + q = (q - 2 ^ 52) + (s + 1) * 2 ^ 52 := by
        rw [Nat.add_mul]; omega
      rw [this, Nat.add_mul_div_right _ _ hpos, Nat.div_eq_of_lt (by omega)]
      omega
    have hmod : (s * 2 ^ 52 + q) % 2 ^ 52 = q - 2 ^ 52 := by
      have : s * 2 ^ 52 + q = (q - 2 ^ 52) + (s + 1) * 2 ^ 52 := by
        rw [Nat.add_mul]; omega
      rw [this, Nat.add_mul_mod_self_right, Nat.mod_eq_of_lt (by omega)]
    rw [hdiv, hmod, if_neg (by omega), Nat.add_sub_cancel]
    have : 2 ^ 52 + (q - 2 ^ 52) = q := by omega
    rw [this]

theorem shiftOf_lt_of_lt {k j e : Nat} (he : e = 53 + j) (h : k < 2 ^ e) : shiftOf k ≤ j := by
  subst he
  obtain ⟨a1, a2, a3⟩ := shiftOf_spec k
  by_contra hc
  have h1 := a2 (by omega)
  have : 2 ^ (53 + j) ≤ 2 ^ (52 + shiftOf k) := Nat.pow_le_pow_right (by omega) (by omega)
  omega

/-- A magnitude that is a multiple of the spacing of its binade, below the
overflow threshold, is returned as it is by the rounding. -/
theorem umagBits_roundMag_exact (n : Nat) (hdvd : 2 ^ shiftOf n ∣ n) (hs : shiftOf n ≤ 2045) :
    umagBits (roundMag n 1) = n := by
  obtain ⟨a1, a2, a3⟩ := shiftOf_spec n
  have hpos : 0 < 2 ^ shiftOf n := Nat.two_pow_pos _
  unfold roundMag
  simp only [Nat.div_one, Nat.one_mul]
  rw [rne_of_dvd hpos hdvd]
  have hq : n / 2 ^ shiftOf n < 2 ^ 53 := by
    rw [Nat.div_lt_iff_lt_mul hpos, ← Nat.pow_add]
    rcases a3 with a3 | a3
    · exact a3
    · omega
  have hq2 : 0 < shiftOf n → 2 ^ 52 ≤ n / 2 ^ shiftOf n := by
    intro h0
    rw [Nat.le_div_iff_mul_le hpos, ← Nat.pow_add]
    exact a2 h0
  have hle : shiftOf n * 2 ^ 52 + n / 2 ^ shiftOf n ≤ infBits := by
    unfold infBits
    have h1 : shiftOf n * 2 ^ 52 ≤ 2045 * 2 ^ 52 := Nat.mul_le_mul_right _ hs
    omega
  rw [min_eq_left hle, umagBits_shift _ _ hq hq2]
  exact Nat.div_mul_cancel hdvd

theorem roundMag_le_infBits (n d : Nat) : roundMag n d ≤ infBits := by
  unfold roundMag
  exact min_le_right _ _

theorem umag_round (s : Bool) (n d : Nat) : (round s n d).umag = umagBits (roundMag n d) :=
  umag_ofMag s _ (roundMag_le_infBits n d)

/-! ## The exponent value of `fast_log` -/

/-- The exponent field extracted by `fast_log` is the exponent field of its
argument. -/
theorem fast_log_le_eq (x : Double) : fast_log_le x = x.expo := by
  have hm := x.mant_lt
  have he := x.expo_lt
  have h52 : (2 : Nat) ^ 52 = 4503599627370496 := by norm_num
  have h63 : (2 : Nat) ^ 63 = 9223372036854775808 := by norm_num
  have hmask : (0x7ff : Nat) = 2 ^ 11 - 1 := by norm_num
  unfold fast_log_le d2ll
  rw [hmask, Nat.and_pow_two_sub_one_eq_mod, Nat.shiftRight_eq_div_pow]
  rw [h52] at hm ⊢
  rw [h63]
  cases x.sign <;> simp only [Bool.false_eq_true, if_false, if_true] <;> omega

theorem roundMag_fe_low : roundMag ((2 ^ 64 - 1023) * scale1) 1 = 1087 * 2 ^ 52 := by decide!

theorem roundMag_fe_high : roundMag ((2 ^ 64 - 1) * scale1) 1 = 1087 * 2 ^ 52 := by decide!

/-- For every argument whose exponent field is below 1023, that is every finite
`|x| < 1`, the exponent value computed by `fast_log` is `2^64`: the unsigned
difference `le - 1023` wraps around. -/
theorem fast_log_fe_of_lt (x : Double) (h : x.expo < 1023) :
    fast_log_fe x = mk false 1087 0 := by
  unfold fast_log_fe
  rw [fast_log_le_eq]
  have h64 : (2 : Nat) ^ 64 = 18446744073709551616 := by norm_num
  have hk : (x.expo + (2 ^ 64 - 1023)) % 2 ^ 64 = x.expo + (2 ^ 64 - 1023) := by
    apply Nat.mod_eq_of_lt
    rw [h64]
    omega
  rw [hk]
  have h1 : roundMag ((2 ^ 64 - 1023) * scale1) 1
      ≤ roundMag ((x.expo + (2 ^ 64 - 1023)) * scale1) 1 :=
    roundMag_mono 1 (Nat.mul_le_mul_right _ (by omega))
  have h2 : roundMag ((x.expo + (2 ^ 64 - 1023)) * scale1) 1
      ≤ roundMag ((2 ^ 64 - 1) * scale1) 1 :=
    roundMag_mono 1 (Nat.mul_le_mul_right _ (by rw [h64]; omega))
  rw [roundMag_fe_low] at h1
  rw [roundMag_fe_high] at h2
  have h3 : roundMag ((x.expo + (2 ^ 64 - 1023)) * scale1) 1 = 1087 * 2 ^ 52 :=
    Nat.le_antisymm h2 h1
  unfold Double.round mk
  rw [h3, Nat.add_zero]

/-- C7, on the code: for `x = 0.5` (exponent field 1022) the exponent value `fe`
is not `-1.0` but `2^64`, the unsigned difference `1022 - 1023` taken modulo
`2^64` and rounded to `double`; `fast_log(0.5)` comes out as about `1.28e19`. -/
theorem fast_log_fe_half :
    fast_log_le half = 1022 ∧ fast_log_fe half = mk false 1087 0 ∧
      (fast_log_fe half).toRat = 2 ^ 64 ∧ fast_log_fe half ≠ neg one ∧
      fast_log half = mk false 1086 1739715140794863 := by
  refine ⟨by decide!, by decide!, ?_, by decide!, by decide!⟩
  have h : (fast_log_fe half).sval = 2 ^ 64 * (scale1 : Int) := by decide!
  have hpos : (scale1 : ℚ) ≠ 0 := by exact_mod_cast scale1_pos.ne'
  rw [toRat, h]
  push_cast
  field_simp
  norm_num

/-! ## The blend step of `fast_log` -/

/-- C9, on the code: when the fraction equals `SQRTH` neither test of the blend
step fires: the exponent value is left as it is and the fraction is not doubled,
so `x' = SQRTH - 1.0` and not `2 * SQRTH - 1.0`.  The fraction `SQRTH` arises for
the argument `1.4142135623730951`, whose logarithm comes out negative. -/
theorem fast_log_blend_SQRTH (fe : Double) :
    fast_log_blend fe SQRTH = (fe, sub SQRTH one) ∧
      sub SQRTH one ≠ sub (add SQRTH SQRTH) one ∧
      fast_log_frac (mk false 1023 1865452045155277) = SQRTH ∧
      fast_log (mk false 1023 1865452045155277) = mk true 1021 1739715140794862 := by
  refine ⟨?_, by decide!, by decide!, by decide!⟩
  have h1 : gt SQRTH SQRTH = false := by decide!
  have h2 : lt SQRTH SQRTH = false := by decide!
  simp [fast_log_blend, h1, h2]

/-! ## Range reduction of `fast_exp` at a negative argument -/

theorem toRat_neg_one : (neg one).toRat = -1 := by decide!

/-- C8, on the code: for `x = -1.0` the sum `LOG2E * x + 0.5` is about `-0.94`,
its conversion to `int` truncates toward zero and gives `n = 0`.  The nearest
integer of `x * log2(e)` is `-1` (they differ by less than `1/2`) and the `n` of
the code is more than `1/2` away from `x * log2(e)`; the reduced argument stays
`-1.0`, larger in magnitude than `ln2 / 2`. -/
theorem fast_exp_n_neg_one :
    lt (neg one) (add (mul LOG2E (neg one)) half) = true ∧
      lt (add (mul LOG2E (neg one)) half) zero = true ∧
      fast_exp_n (neg one) = 0 ∧ fast_exp_reduce (neg one) = neg one ∧
      |((neg one).toRat : ℝ) * (1 / Real.log 2) - ((-1 : Int) : ℝ)| < 1 / 2 ∧
      1 / 2 < |((neg one).toRat : ℝ) * (1 / Real.log 2) - ((fast_exp_n (neg one) : Int) : ℝ)| ∧
      Real.log 2 / 2 < |((fast_exp_reduce (neg one)).toRat : ℝ)| := by
  have hn : fast_exp_n (neg one) = 0 := by decide!
  have hr : fast_exp_reduce (neg one) = neg one := by decide!
  have h1 := Real.log_two_gt_d9
  have h2 := Real.log_two_lt_d9
  have hpos : (0 : ℝ) < Real.log 2 := by linarith
  have hinv1 : (1.44 : ℝ) < 1 / Real.log 2 := by
    rw [lt_div_iff₀ hpos]
    norm_num at h2 ⊢
    linarith
  have hinv2 : 1 / Real.log 2 < (1.45 : ℝ) := by
    rw [div_lt_iff₀ hpos]
    norm_num at h1 ⊢
    linarith
  refine ⟨by decide!, by decide!, hn, hr, ?_, ?_, ?_⟩
  · rw [toRat_neg_one]
    push_cast
    rw [abs_lt]
    constructor <;> norm_num at hinv1 hinv2 ⊢ <;> linarith
  · rw [toRat_neg_one, hn]
    push_cast
    rw [sub_zero, neg_one_mul, abs_neg, abs_of_pos (by positivity)]
    norm_num at hinv1 ⊢
    linarith
  · rw [hr, toRat_neg_one]
    push_cast
    rw [abs_neg, abs_one]
    linarith

/-! ## The scale factor of `fast_exp` -/

theorem le_iff (a b : Double) :
    le a b = true ↔ a.isNaN = false ∧ b.isNaN = false ∧ a.sval ≤ b.sval := by
  simp [le, and_assoc]

theorem natAbs_sval (d : Double) : d.sval.natAbs = d.umag := by
  unfold sval
  split <;> simp

theorem sval_neg (d : Double) : (neg d).sval = -d.sval := by
  unfold sval neg umag
  cases d.sign <;> simp

theorem pow2_le_pow2 {a b : Nat} (h : a ≤ b) : pow2 a ≤ pow2 b :=
  Nat.pow_le_pow_right (by norm_num) h

theorem expo_ne_of_umag_lt (d : Double) (h : d.umag < infMag) : d.expo ≠ 2047 := by
  intro he
  have h0 : ¬ d.expo = 0 := by omega
  have hp : pow2 (d.expo - 1) = pow2 2046 := by rw [he]
  unfold umag at h
  rw [if_neg h0, infMag, ← hp, pow2] at h
  have : 2 ^ 52 * 2 ^ (d.expo - 1) ≤ (2 ^ 52 + d.mant) * 2 ^ (d.expo - 1) :=
    Nat.mul_le_mul_right _ (Nat.le_add_right _ _)
  exact absurd h (Nat.not_lt.mpr this)

theorem isNaN_eq_false_of_expo (d : Double) (h : d.expo ≠ 2047) : d.isNaN = false := by
  simp [isNaN, h]

theorem isInf_eq_false_of_expo (d : Double) (h : d.expo ≠ 2047) : d.isInf = false := by
  simp [isInf, h]

theorem isFinite_of_expo (d : Double) (h : d.expo ≠ 2047) : d.isFinite = true := by
  simp [isFinite, h]

theorem expProdBound_lt : expProdBound < infMag := by decide!

theorem expSumBound_lt : expSumBound < infMag := by decide!

theorem expSumBound_div : expSumBound / scale1 ≤ 1022 := by decide!

theorem truncInt_of_small (t : Double) (hfin : t.expo ≠ 2047) (h : t.umag / scale1 ≤ 1022) :
    ∃ i : Int, truncInt t = some i ∧ -1022 ≤ i ∧ i ≤ 1022 := by
  unfold truncInt
  rw [isFinite_of_expo t hfin]
  simp only [if_true]
  generalize t.umag / scale1 = q at h
  cases t.sign
  · refine ⟨(q : Int), ?_, by omega, by omega⟩
    simp only [Bool.false_eq_true, if_false]
    rw [if_pos]
    constructor <;> omega
  · refine ⟨-(q : Int), ?_, by omega, by omega⟩
    simp only [if_true]
    rw [if_pos]
    constructor <;> omega

theorem two_pow_le_two_pow {a b : Nat} (h : a ≤ b) : (2 : Nat) ^ a ≤ 2 ^ b :=
  Nat.pow_le_pow_right (by norm_num) h

theorem ofInt_spec (i : Int) (h1 : -1022 ≤ i) (h2 : i ≤ 1022) :
    (ofInt i).umag = i.natAbs * scale1 ∧ (ofInt i).expo ≠ 2047 := by
  have hlt : i.natAbs * scale1 < 2 ^ (10 + 1074) := by
    have : i.natAbs < 2 ^ 10 := by omega
    calc i.natAbs * scale1 < 2 ^ 10 * scale1 :=
          Nat.mul_lt_mul_of_pos_right this scale1_pos
      _ = 2 ^ (10 + 1074) := pow_mul_scale1 10
  have hs : shiftOf (i.natAbs * scale1) ≤ 1031 := shiftOf_lt_of_lt (by norm_num) hlt
  have hdvd : 2 ^ shiftOf (i.natAbs * scale1) ∣ i.natAbs * scale1 :=
    Dvd.dvd.mul_left (pow_dvd_scale1 (by omega)) _
  have hu : (ofInt i).umag = i.natAbs * scale1 := by
    unfold ofInt
    rw [umag_round, umagBits_roundMag_exact _ hdvd (Nat.le_trans hs (by norm_num))]
  refine ⟨hu, ?_⟩
  apply expo_ne_of_umag_lt
  rw [hu, infMag]
  have hi : i.natAbs < 2 ^ 52 := by omega
  exact Nat.mul_lt_mul_of_lt_of_le hi (pow2_le_pow2 (by norm_num : 1074 ≤ 2046))
    (pow2_pos 2046)

theorem toInt_ofInt_of_small (i : Int) (h1 : -1022 ≤ i) (h2 : i ≤ 1022) :
    toInt (ofInt i) = i := by
  obtain ⟨hu, hfin⟩ := ofInt_spec i h1 h2
  have hsign : (ofInt i).sign = decide (i < 0) := rfl
  unfold toInt truncInt
  rw [isFinite_of_expo _ hfin, hu, hsign, Nat.mul_div_cancel _ scale1_pos]
  simp only [if_true]
  by_cases hneg : i < 0
  · simp only [hneg, decide_True, if_true]
    rw [if_pos (by constructor <;> omega)]
    simp only [Option.getD_some]
    omega
  · simp only [hneg, decide_False, Bool.false_eq_true, if_false]
    rw [if_pos (by constructor <;> omega)]
    simp only [Option.getD_some]
    omega

theorem mul_of_finite (a b : Double) (ha : a.expo ≠ 2047) (hb : b.expo ≠ 2047) :
    mul a b = round (xor a.sign b.sign) (a.umag * b.umag) scale1 := by
  unfold mul
  simp [isNaN_eq_false_of_expo a ha, isNaN_eq_false_of_expo b hb,
    isInf_eq_false_of_expo a ha, isInf_eq_false_of_expo b hb]

theorem add_of_finite (a b : Double) (ha : a.expo ≠ 2047) (hb : b.expo ≠ 2047) :
    add a b = if a.sval + b.sval = 0 then ofMag (a.sign && b.sign) 0
      else round (decide (a.sval + b.sval < 0)) (a.sval + b.sval).natAbs 1 := by
  unfold add
  simp [isNaN_eq_false_of_expo a ha, isNaN_eq_false_of_expo b hb,
    isInf_eq_false_of_expo a ha, isInf_eq_false_of_expo b hb]

theorem EXP_LIMIT_umag_lt : EXP_LIMIT.umag < infMag := by decide!

theorem EXP_LIMIT_sval : EXP_LIMIT.sval = (EXP_LIMIT.umag : Int) := by decide!

theorem LOG2E_expo : LOG2E.expo ≠ 2047 := by decide!

theorem half_expo : half.expo ≠ 2047 := by decide!

/-- In the domain `-708 <= x <= 708` the value `LOG2E * x + 0.5` truncates to an
integer between `-1022` and `1022`. -/
theorem fast_exp_arg_small (x : Double) (hlo : le (neg EXP_LIMIT) x = true)
    (hhi : le x EXP_LIMIT = true) :
    ∃ i : Int, truncInt (add (mul LOG2E x) half) = some i ∧ -1022 ≤ i ∧ i ≤ 1022 := by
  rw [le_iff] at hlo hhi
  rw [sval_neg, EXP_LIMIT_sval] at hlo
  rw [EXP_LIMIT_sval] at hhi
  have hux : x.umag ≤ EXP_LIMIT.umag := by
    have := natAbs_sval x
    omega
  have hxfin : x.expo ≠ 2047 :=
    expo_ne_of_umag_lt x (Nat.lt_of_le_of_lt hux EXP_LIMIT_umag_lt)
  have hp : (mul LOG2E x).umag ≤ expProdBound := by
    rw [mul_of_finite _ _ LOG2E_expo hxfin, umag_round]
    exact umagBits_mono (roundMag_mono _ (Nat.mul_le_mul_left _ hux))
  have hpfin : (mul LOG2E x).expo ≠ 2047 :=
    expo_ne_of_umag_lt _ (Nat.lt_of_le_of_lt hp expProdBound_lt)
  rw [add_of_finite _ _ hpfin half_expo]
  split
  · have hz : (ofMag ((mul LOG2E x).sign && half.sign) 0).truncInt = some 0 := by
      have : half.sign = false := by decide!
      rw [this, Bool.and_false]
      decide!
    exact ⟨0, hz, by omega, by omega⟩
  · apply truncInt_of_small
    · apply expo_ne_of_umag_lt
      rw [umag_round]
      refine Nat.lt_of_le_of_lt (umagBits_mono (roundMag_mono 1 ?_)) expSumBound_lt
      have h1 := natAbs_sval (mul LOG2E x)
      have h2 := natAbs_sval half
      omega
    · rw [umag_round]
      have hle : umagBits (roundMag ((mul LOG2E x).sval + half.sval).natAbs 1) ≤ expSumBound := by
        refine umagBits_mono (roundMag_mono 1 ?_)
        have h1 := natAbs_sval (mul LOG2E x)
        have h2 := natAbs_sval half
        omega
      exact Nat.le_trans (Nat.div_le_div_right hle) expSumBound_div

theorem addBias_of_small (n : Int) (h1 : -1022 ≤ n) (h2 : n ≤ 1022) : addBias n = n + 1023 := by
  unfold addBias
  norm_num
  omega

theorem scaleBits_of_field (e : Nat) (he : e < 2048) : scaleBits (e : Int) = e * 2 ^ 52 := by
  unfold scaleBits
  have h1 : ((e : Int) % 2 ^ 64).toNat = e := by
    norm_num
    omega
  rw [h1]
  apply Nat.mod_eq_of_lt
  norm_num
  omega

theorem ll2d_of_field (e : Nat) (he : e < 2048) :
    ll2d (e * 2 ^ 52) = ⟨false, e, 0, he, Nat.two_pow_pos 52⟩ := by
  have h52 : (2:Nat) ^ 52 = 4503599627370496 := by norm_num
  have h63 : (2:Nat) ^ 63 = 9223372036854775808 := by norm_num
  simp only [ll2d, h52, h63, Double.mk.injEq]
  refine ⟨?_, ?_, ?_⟩
  · have : e * 4503599627370496 / 9223372036854775808 % 2 = 0 := by omega
    simp [this]
  · omega
  · omega

theorem cast_pow2 (n : Nat) : ((pow2 n : Nat) : ℚ) = 2 ^ n := by
  unfold pow2
  push_cast
  rfl

theorem two_pow_field_div (e N : Nat) (h0 : 0 < e) :
    (((2 ^ 52 * 2 ^ (e - 1) : Nat) : Int) : ℚ) / ((pow2 N : Nat) : ℚ)
      = 2 ^ ((e : Int) + 51 - (N : Int)) := by
  obtain ⟨j, rfl⟩ : ∃ j, e = j + 1 := ⟨e - 1, by omega⟩
  rw [cast_pow2, Int.cast_natCast, Nat.cast_mul, Nat.cast_pow, Nat.cast_pow, Nat.cast_ofNat,
    Nat.add_sub_cancel, ← pow_add, ← zpow_natCast, ← zpow_natCast, ← zpow_sub₀ two_ne_zero]
  congr 1
  push_cast
  ring

/-- The rational denoted by a positive normal power of two, exponent field `e`. -/
theorem toRat_pow_field (e : Nat) (he : e < 2048) (h0 : 0 < e) :
    (Double.mk false e 0 he (Nat.two_pow_pos 52)).toRat = (2 : ℚ) ^ ((e : Int) - 1023) := by
  have hne : ¬ e = 0 := by omega
  have hu : (Double.mk false e 0 he (Nat.two_pow_pos 52)).sval
      = ((2 ^ 52 * 2 ^ (e - 1) : Nat) : Int) := by
    unfold sval umag
    rw [if_neg hne, Nat.add_zero]
    simp only [Bool.false_eq_true, if_false]
  have hx : (e : Int) + 51 - ((1074 : Nat) : Int) = (e : Int) - 1023 := by
    push_cast
    ring
  rw [toRat, hu, scale1, two_pow_field_div e 1074 h0, hx]

/-- C10. In the non-saturated domain `-708 <= x <= 708` the conversion of
`LOG2E * x + 0.5` to `int` is in range and yields the `n` of the range reduction;
the biased exponent `n + 1023` lies between 1 and 2046, the pattern
`(n + 1023) << 52` has sign bit 0, fraction 0 and exponent field `n + 1023`, and
the scale factor is the finite normal double `2^n`. -/
theorem fast_exp_scale_normal (x : Double) (hlo : le (neg EXP_LIMIT) x = true)
    (hhi : le x EXP_LIMIT = true) :
    truncInt (add (mul LOG2E x) half) = some (fast_exp_n x) ∧
      1 ≤ fast_exp_n x + 1023 ∧ fast_exp_n x + 1023 ≤ 2046 ∧
      addBias (fast_exp_n x) = fast_exp_n x + 1023 ∧
      (scaleBits (addBias (fast_exp_n x)) : Int) = (fast_exp_n x + 1023) * 2 ^ 52 ∧
      (fast_exp_scale (fast_exp_n x)).sign = false ∧
      (fast_exp_scale (fast_exp_n x)).mant = 0 ∧
      ((fast_exp_scale (fast_exp_n x)).expo : Int) = fast_exp_n x + 1023 ∧
      (fast_exp_scale (fast_exp_n x)).toRat = (2 : ℚ) ^ fast_exp_n x := by
  obtain ⟨i, hi, h1, h2⟩ := fast_exp_arg_small x hlo hhi
  have hn : fast_exp_n x = i := by
    unfold fast_exp_n fast_exp_px toInt
    rw [hi]
    exact toInt_ofInt_of_small i h1 h2
  rw [hn]
  obtain ⟨e, he⟩ : ∃ e : Nat, (e : Int) = i + 1023 := ⟨(i + 1023).toNat, by omega⟩
  have he1 : 0 < e := by omega
  have he2 : e < 2048 := by omega
  have hb := addBias_of_small i h1 h2
  have hsc : fast_exp_scale i = ⟨false, e, 0, he2, Nat.two_pow_pos 52⟩ := by
    unfold fast_exp_scale
    rw [hb, ← he, scaleBits_of_field e he2, ll2d_of_field e he2]
  refine ⟨hi, by omega, by omega, hb, ?_, ?_, ?_, ?_, ?_⟩
  · rw [hb, ← he, scaleBits_of_field e he2]
    push_cast
    rfl
  · rw [hsc]
  · rw [hsc]
  · rw [hsc]; exact he
  · have hx : (e : Int) - 1023 = i := by omega
    rw [hsc, toRat_pow_field e he2 he1, hx]

theorem fast_exp_scale_normal_witness :
    truncInt (add (mul LOG2E (neg EXP_LIMIT)) half) = some (fast_exp_n (neg EXP_LIMIT)) ∧
      1 ≤ fast_exp_n (neg EXP_LIMIT) + 1023 ∧ fast_exp_n (neg EXP_LIMIT) + 1023 ≤ 2046 ∧
      (fast_exp_scale (fast_exp_n (neg EXP_LIMIT))).toRat
        = (2 : ℚ) ^ fast_exp_n (neg EXP_LIMIT) :=
  have h1 : le (neg EXP_LIMIT) (neg EXP_LIMIT) = true := by decide!
  have h2 : le (neg EXP_LIMIT) EXP_LIMIT = true := by decide!
  have h := fast_exp_scale_normal (neg EXP_LIMIT) h1 h2
  ⟨h.1, h.2.1, h.2.2.1, h.2.2.2.2.2.2.2.2⟩

/-! ## Rounding: the error of one operation -/

theorem rne_error (n D : Nat) (hD : 0 < D) : |((rne n D : Nat) : ℚ) - (n : ℚ) / D| ≤ 1 / 2 := by
  have hDq : (0 : ℚ) < D := by exact_mod_cast hD
  have hn : (n : ℚ) = (D : ℚ) * ((n / D : Nat) : ℚ) + ((n % D : Nat) : ℚ) := by
    exact_mod_cast (Nat.div_add_mod n D).symm
  have hr : ((n % D : Nat) : ℚ) < D := by exact_mod_cast Nat.mod_lt n hD
  have hr0 : (0 : ℚ) ≤ ((n % D : Nat) : ℚ) := Nat.cast_nonneg _
  have key : ∀ M : ℚ, |M * D - n| ≤ D / 2 → |M - (n : ℚ) / D| ≤ 1 / 2 := by
    intro M h
    have : M - (n : ℚ) / D = (M * D - n) / D := by field_simp
    rw [this, abs_div, abs_of_pos hDq, div_le_iff₀ hDq]
    linarith
  apply key
  unfold rne
  simp only
  split
  · rename_i h
    have h' : 2 * ((n % D : Nat) : ℚ) < D := by exact_mod_cast h
    rw [abs_le]
    constructor <;> nlinarith
  · split
    · rename_i h1 h
      have h' : (D : ℚ) < 2 * ((n % D : Nat) : ℚ) := by exact_mod_cast h
      push_cast
      rw [abs_le]
      constructor <;> nlinarith
    · rename_i h1 h2
      have h' : 2 * (n % D) = D := by omega
      have h'' : 2 * ((n % D : Nat) : ℚ) = D := by exact_mod_cast h'
      rcases Nat.mod_two_eq_zero_or_one (n / D) with h0 | h0
      · rw [h0, Nat.add_zero, abs_le]
        constructor <;> nlinarith
      · rw [h0]
        push_cast
        rw [abs_le]
        constructor <;> nlinarith

/-- The magnitude denoted by the bits `s * 2^52 + M` for a rounded significand
`M`, which may have reached `2^53`. -/
theorem umagBits_shift_le (s M : Nat) (hM : M ≤ 2 ^ 53) (hs : 0 < s → 2 ^ 52 ≤ M) :
    umagBits (s * 2 ^ 52 + M) = M * 2 ^ s := by
  rcases Nat.lt_or_ge M (2 ^ 53) with hlt | hge
  · exact umagBits_shift s M hlt hs
  · have hM2 : M = 2 ^ 52 + 2 ^ 52 := by
      have : (2 : Nat) ^ 53 = 2 ^ 52 + 2 ^ 52 := by norm_num
      omega
    have e1 : s * 2 ^ 52 + M = (s + 1) * 2 ^ 52 + 2 ^ 52 := by
      rw [hM2, Nat.add_mul]; omega
    rw [e1, umagBits_shift (s + 1) (2 ^ 52) (by norm_num) (fun _ => Nat.le_refl _), hM2,
      two_pow_binade]

/-- The outcome of rounding the magnitude `n / d` when its binade shift is at
most 2044: no overflow, and an error of at most half the spacing `2^s`. -/
theorem roundMag_error (n d : Nat) (hd : 0 < d) (hs : shiftOf (n / d) ≤ 2044) :
    roundMag n d < infBits ∧
      |((umagBits (roundMag n d) : Nat) : ℚ) - (n : ℚ) / d| ≤ 2 ^ shiftOf (n / d) / 2 := by
  obtain ⟨a1, a2, a3⟩ := shiftOf_spec (n / d)
  have hpos : 0 < 2 ^ shiftOf (n / d) := Nat.two_pow_pos _
  have hDpos : 0 < d * 2 ^ shiftOf (n / d) := Nat.mul_pos hd hpos
  have hq1 : n / (d * 2 ^ shiftOf (n / d)) < 2 ^ 53 := by
    rw [← Nat.div_div_eq_div_mul, Nat.div_lt_iff_lt_mul hpos, ← Nat.pow_add]
    rcases a3 with a3 | a3
    · exact a3
    · omega
  have hM : rne n (d * 2 ^ shiftOf (n / d)) ≤ 2 ^ 53 := by
    have := rne_le n (d * 2 ^ shiftOf (n / d))
    omega
  have hM2 : 0 < shiftOf (n / d) → 2 ^ 52 ≤ rne n (d * 2 ^ shiftOf (n / d)) := by
    intro h0
    have h1 := rne_ge n (d * 2 ^ shiftOf (n / d))
    have h2 : 2 ^ 52 ≤ n / (d * 2 ^ shiftOf (n / d)) := by
      rw [← Nat.div_div_eq_div_mul, Nat.le_div_iff_mul_le hpos, ← Nat.pow_add]
      exact a2 h0
    omega
  have hbits : shiftOf (n / d) * 2 ^ 52 + rne n (d * 2 ^ shiftOf (n / d)) < infBits := by
    unfold infBits
    have h1 : shiftOf (n / d) * 2 ^ 52 ≤ 2044 * 2 ^ 52 := Nat.mul_le_mul_right _ hs
    have h53 : (2 : Nat) ^ 53 = 2 ^ 52 + 2 ^ 52 := by norm_num
    omega
  have hrm : roundMag n d = shiftOf (n / d) * 2 ^ 52 + rne n (d * 2 ^ shiftOf (n / d)) := by
    unfold roundMag
    exact min_eq_left (Nat.le_of_lt hbits)
  rw [hrm]
  refine ⟨hbits, ?_⟩
  rw [umagBits_shift_le _ _ hM hM2]
  have he := rne_error n (d * 2 ^ shiftOf (n / d)) hDpos
  have hdq : (0 : ℚ) < d := by exact_mod_cast hd
  have hpq : (0 : ℚ) < 2 ^ shiftOf (n / d) := by positivity
  have e1 : (((rne n (d * 2 ^ shiftOf (n / d)) * 2 ^ shiftOf (n / d) : Nat) : ℚ)) - (n : ℚ) / d
      = (((rne n (d * 2 ^ shiftOf (n / d)) : Nat) : ℚ)
          - (n : ℚ) / ((d * 2 ^ shiftOf (n / d) : Nat) : ℚ)) * 2 ^ shiftOf (n / d) := by
    push_cast
    field_simp
    ring
  rw [e1, abs_mul, abs_of_pos hpq]
  calc |((rne n (d * 2 ^ shiftOf (n / d)) : Nat) : ℚ)
          - (n : ℚ) / ((d * 2 ^ shiftOf (n / d) : Nat) : ℚ)| * 2 ^ shiftOf (n / d)
      ≤ 1 / 2 * 2 ^ shiftOf (n / d) := mul_le_mul_of_nonneg_right he (le_of_lt hpq)
    _ = 2 ^ shiftOf (n / d) / 2 := by ring

/-! ## Values of rounded results -/

theorem sgn_xor (a b : Bool) : sgn (xor a b) = sgn a * sgn b := by
  cases a <;> cases b <;> simp [sgn]

theorem abs_sgn (s : Bool) : |sgn s| = 1 := by
  cases s <;> simp [sgn]

theorem scale1_posQ : (0 : ℚ) < (scale1 : ℚ) := by exact_mod_cast scale1_pos

theorem toRat_eq (d : Double) : d.toRat = sgn d.sign * ((d.umag : Nat) : ℚ) / (scale1 : ℚ) := by
  unfold toRat sval sgn
  cases d.sign <;> simp

theorem abs_toRat (d : Double) : |d.toRat| = ((d.umag : Nat) : ℚ) / (scale1 : ℚ) := by
  rw [toRat_eq, abs_div, abs_mul, abs_sgn, one_mul, abs_of_nonneg (Nat.cast_nonneg _),
    abs_of_pos scale1_posQ]

theorem toRat_neg (d : Double) : (neg d).toRat = -d.toRat := by
  unfold toRat
  rw [sval_neg]
  push_cast
  ring

theorem expo_ofMag_of_lt (s : Bool) (b : Nat) (h : b < infBits) : (ofMag s b).expo ≠ 2047 := by
  unfold infBits at h
  show b / 2 ^ 52 % 2048 ≠ 2047
  omega

theorem sign_round (s : Bool) (n d : Nat) : (round s n d).sign = s := rfl

/-- A bound on the quotient that keeps the rounding away from overflow. -/
theorem shiftOf_le_of_le (n d : Nat) (h : n ≤ 2 ^ 64 * scale1 * d) : shiftOf (n / d) ≤ 2044 := by
  have h1 : n / d ≤ 2 ^ 64 * scale1 := by
    apply Nat.div_le_of_le_mul
    rw [Nat.mul_comm]
    exact h
  have h2 : n / d < 2 ^ (65 + 1074) := by
    have : 2 ^ 64 * scale1 < 2 ^ 65 * scale1 :=
      Nat.mul_lt_mul_of_pos_right (by norm_num) scale1_pos
    rw [pow_mul_scale1 65] at this
    exact Nat.lt_of_le_of_lt h1 this
  have h3 := shiftOf_lt_of_lt (j := 1086) (by norm_num) h2
  omega

/-- One rounding: the result is finite and within half a unit in the last place
of the exact magnitude `n / d`, as long as that stays below `2^64`. -/
theorem round_error (s : Bool) (n d : Nat) (hd : 0 < d) (h : n ≤ 2 ^ 64 * scale1 * d) :
    (round s n d).expo ≠ 2047 ∧
      |(round s n d).toRat - sgn s * ((n : ℚ) / d / scale1)|
        ≤ (n : ℚ) / d / scale1 / 2 ^ 53 + 1 / (2 * scale1) := by
  have hs := shiftOf_le_of_le n d h
  obtain ⟨hlt, herr⟩ := roundMag_error n d hd hs
  obtain ⟨a1, a2, a3⟩ := shiftOf_spec (n / d)
  refine ⟨expo_ofMag_of_lt s _ hlt, ?_⟩
  have hS := scale1_posQ
  have hdq : (0 : ℚ) < d := by exact_mod_cast hd
  have hhalf : (2 : ℚ) ^ shiftOf (n / d) / 2 ≤ (n : ℚ) / d / 2 ^ 53 + 1 / 2 := by
    rcases Nat.eq_zero_or_pos (shiftOf (n / d)) with h0 | h0
    · rw [h0, pow_zero]
      have : (0 : ℚ) ≤ (n : ℚ) / d / 2 ^ 53 :=
        div_nonneg (div_nonneg (Nat.cast_nonneg _) (le_of_lt hdq)) (by norm_num)
      linarith
    · have h1 : 2 ^ (52 + shiftOf (n / d)) ≤ n / d := a2 h0
      have h2 : (((n / d : Nat)) : ℚ) ≤ (n : ℚ) / d := Nat.cast_div_le
      have h3 : ((2 : ℚ)) ^ (52 + shiftOf (n / d)) ≤ (n : ℚ) / d := by
        refine le_trans ?_ h2
        exact_mod_cast h1
      rw [pow_add] at h3
      have h4 : (2 : ℚ) ^ shiftOf (n / d) / 2 = 2 ^ 52 * 2 ^ shiftOf (n / d) / 2 ^ 53 := by
        field_simp
        ring
      rw [h4]
      have : 2 ^ 52 * 2 ^ shiftOf (n / d) / 2 ^ 53 ≤ (n : ℚ) / d / 2 ^ 53 :=
        div_le_div_of_nonneg_right h3 (by positivity)
      linarith
  have hval : (round s n d).toRat - sgn s * ((n : ℚ) / d / scale1)
      = sgn s * ((((umagBits (roundMag n d) : Nat) : ℚ) - (n : ℚ) / d) / scale1) := by
    rw [toRat_eq, sign_round, umag_round]
    field_simp
    ring
  rw [hval, abs_mul, abs_sgn, one_mul, abs_div, abs_of_pos hS, div_le_iff₀ hS]
  have e : ((n : ℚ) / d / scale1 / 2 ^ 53 + 1 / (2 * scale1)) * scale1
      = (n : ℚ) / d / 2 ^ 53 + 1 / 2 := by
    field_simp
    ring
  rw [e]
  exact le_trans herr hhalf

/-! ## Forward error analysis -/

theorem eta_le : (1 : ℚ) / (2 * scale1) ≤ 1 / 2 ^ 200 := by
  have h : (2 : ℚ) ^ 200 ≤ 2 * (scale1 : ℚ) := by
    have h1 : (2 : Nat) ^ 200 ≤ scale1 := two_pow_le_two_pow (by norm_num : 200 ≤ 1074)
    have h2 : ((2 : Nat) ^ 200 : ℚ) ≤ (scale1 : ℚ) := by exact_mod_cast h1
    have h3 := scale1_posQ
    push_cast at h2
    linarith
  exact one_div_le_one_div_of_le (by positivity) h

theorem toRat_add_eq (a b : Double) :
    a.toRat + b.toRat = ((a.sval + b.sval : Int) : ℚ) / (scale1 : ℚ) := by
  unfold toRat
  push_cast
  ring

theorem int_eq_sgn_natAbs (s : Int) : (s : ℚ) = sgn (decide (s < 0)) * ((s.natAbs : Nat) : ℚ) := by
  rcases lt_or_le s 0 with h | h
  · have h1 : ((s.natAbs : Nat) : Int) = -s := by omega
    have h2 : ((s.natAbs : Nat) : ℚ) = -(s : ℚ) := by
      rw [← Int.cast_natCast, h1, Int.cast_neg]
    simp [sgn, h, h2]
  · have h1 : ((s.natAbs : Nat) : Int) = s := by omega
    have h2 : ((s.natAbs : Nat) : ℚ) = (s : ℚ) := by
      rw [← Int.cast_natCast, h1]
    simp [sgn, not_lt.mpr h, h2]

namespace Appr

variable {a b : Double} {va vb A B εa εb : ℚ}

theorem eps_nonneg (ha : Appr a va A εa) : 0 ≤ εa := le_trans (abs_nonneg _) ha.2.1

theorem bound_nonneg (ha : Appr a va A εa) : 0 ≤ A := le_trans (abs_nonneg _) ha.2.2

theorem abs_toRat_le (ha : Appr a va A εa) : |a.toRat| ≤ A + εa := by
  have h1 := ha.2.1
  have h2 := ha.2.2
  have : a.toRat = (a.toRat - va) + va := by ring
  rw [this]
  exact le_trans (abs_add _ _) (by linarith)

theorem mono {A' ε' : ℚ} (ha : Appr a va A εa) (hA : A ≤ A') (hε : εa ≤ ε') :
    Appr a va A' ε' :=
  ⟨ha.1, le_trans ha.2.1 hε, le_trans ha.2.2 hA⟩

theorem self (h : a.expo ≠ 2047) : Appr a a.toRat |a.toRat| 0 :=
  ⟨h, by simp, le_refl _⟩

theorem neg (ha : Appr a va A εa) : Appr (Double.neg a) (-va) A εa := by
  refine ⟨ha.1, ?_, ?_⟩
  · rw [toRat_neg]
    have : -a.toRat - -va = -(a.toRat - va) := by ring
    rw [this, abs_neg]
    exact ha.2.1
  · rw [abs_neg]
    exact ha.2.2

theorem mul (ha : Appr a va A εa) (hb : Appr b vb B εb)
    (hbound : (A + εa) * (B + εb) ≤ 2 ^ 64) :
    Appr (Double.mul a b) (va * vb) (A * B)
      (εa * (B + εb) + A * εb + (A + εa) * (B + εb) / 2 ^ 53 + 1 / 2 ^ 200) := by
  have hS := scale1_posQ
  have hta := ha.abs_toRat_le
  have htb := hb.abs_toRat_le
  have hεa := ha.eps_nonneg
  have hεb := hb.eps_nonneg
  have hA := ha.bound_nonneg
  have hB := hb.bound_nonneg
  have hprod : |a.toRat * b.toRat| ≤ (A + εa) * (B + εb) := by
    rw [abs_mul]
    exact mul_le_mul hta htb (abs_nonneg _) (by linarith)
  have hq : ((a.umag * b.umag : Nat) : ℚ) / (scale1 : ℚ) / scale1 = |a.toRat * b.toRat| := by
    rw [abs_mul, abs_toRat, abs_toRat]
    push_cast
    field_simp
  have hn : a.umag * b.umag ≤ 2 ^ 64 * scale1 * scale1 := by
    have h1 : ((a.umag * b.umag : Nat) : ℚ) / (scale1 : ℚ) / scale1 ≤ 2 ^ 64 := by
      rw [hq]
      exact le_trans hprod hbound
    rw [div_div, div_le_iff₀ (mul_pos hS hS)] at h1
    have h2 : ((a.umag * b.umag : Nat) : ℚ) ≤ ((2 ^ 64 * scale1 * scale1 : Nat) : ℚ) := by
      push_cast
      push_cast at h1
      linarith
    exact_mod_cast h2
  obtain ⟨hfin, herr⟩ := round_error (xor a.sign b.sign) _ _ scale1_pos hn
  rw [← mul_of_finite a b ha.1 hb.1] at hfin herr
  have hval : sgn (xor a.sign b.sign) * (((a.umag * b.umag : Nat) : ℚ) / scale1 / scale1)
      = a.toRat * b.toRat := by
    rw [toRat_eq a, toRat_eq b, sgn_xor]
    push_cast
    field_simp
    ring
  rw [hval, hq] at herr
  refine ⟨hfin, ?_, ?_⟩
  · have h1 : |a.toRat * b.toRat - va * vb| ≤ εa * (B + εb) + A * εb := by
      have e : a.toRat * b.toRat - va * vb
          = (a.toRat - va) * b.toRat + va * (b.toRat - vb) := by ring
      rw [e]
      refine le_trans (abs_add _ _) ?_
      rw [abs_mul, abs_mul]
      have i1 : |a.toRat - va| * |b.toRat| ≤ εa * (B + εb) :=
        mul_le_mul ha.2.1 htb (abs_nonneg _) hεa
      have i2 : |va| * |b.toRat - vb| ≤ A * εb :=
        mul_le_mul ha.2.2 hb.2.1 (abs_nonneg _) hA
      linarith
    have h2 : |a.toRat * b.toRat| / 2 ^ 53 ≤ (A + εa) * (B + εb) / 2 ^ 53 :=
      div_le_div_of_nonneg_right hprod (by positivity)
    have h3 := eta_le
    have e : (Double.mul a b).toRat - va * vb
        = ((Double.mul a b).toRat - a.toRat * b.toRat) + (a.toRat * b.toRat - va * vb) := by
      ring
    rw [e]
    refine le_trans (abs_add _ _) ?_
    linarith
  · rw [abs_mul]
    exact mul_le_mul ha.2.2 hb.2.2 (abs_nonneg _) hA

theorem add (ha : Appr a va A εa) (hb : Appr b vb B εb)
    (hbound : A + εa + (B + εb) ≤ 2 ^ 64) :
    Appr (Double.add a b) (va + vb) (A + B)
      (εa + εb + (A + εa + (B + εb)) / 2 ^ 53 + 1 / 2 ^ 200) := by
  have hS := scale1_posQ
  have hta := ha.abs_toRat_le
  have htb := hb.abs_toRat_le
  have hεa := ha.eps_nonneg
  have hεb := hb.eps_nonneg
  have hA := ha.bound_nonneg
  have hB := hb.bound_nonneg
  have hsum : |a.toRat + b.toRat| ≤ A + εa + (B + εb) :=
    le_trans (abs_add _ _) (add_le_add hta htb)
  have hvv : |va + vb| ≤ A + B := le_trans (abs_add _ _) (add_le_add ha.2.2 hb.2.2)
  have hdiff : |a.toRat + b.toRat - (va + vb)| ≤ εa + εb := by
    have e : a.toRat + b.toRat - (va + vb) = (a.toRat - va) + (b.toRat - vb) := by ring
    rw [e]
    exact le_trans (abs_add _ _) (add_le_add ha.2.1 hb.2.1)
  have hpos : 0 ≤ (A + εa + (B + εb)) / 2 ^ 53 + 1 / 2 ^ 200 := by positivity
  rw [add_of_finite a b ha.1 hb.1]
  split
  · rename_i h0
    have hz : a.toRat + b.toRat = 0 := by
      rw [toRat_add_eq, h0]
      simp
    refine ⟨?_, ?_, hvv⟩
    · show (0 / 2 ^ 52) % 2048 ≠ 2047
      decide
    · have e : (ofMag (a.sign && b.sign) 0).toRat = 0 := by
        rw [toRat_eq]
        have : (ofMag (a.sign && b.sign) 0).umag = 0 := by
          cases (a.sign && b.sign) <;> rfl
        rw [this]
        simp
      rw [e, ← hz]
      linarith
  · rename_i h0
    have hq : (((a.sval + b.sval).natAbs : Nat) : ℚ) / ((1 : Nat) : ℚ) / scale1
        = |a.toRat + b.toRat| := by
      rw [toRat_add_eq, abs_div, abs_of_pos hS, Nat.cast_one, div_one, Nat.cast_natAbs]
      push_cast
      rfl
    have hn : (a.sval + b.sval).natAbs ≤ 2 ^ 64 * scale1 * 1 := by
      have h1 : (((a.sval + b.sval).natAbs : Nat) : ℚ) / ((1 : Nat) : ℚ) / scale1 ≤ 2 ^ 64 := by
        rw [hq]
        exact le_trans hsum hbound
      rw [Nat.cast_one, div_one, div_le_iff₀ hS] at h1
      have h2 : (((a.sval + b.sval).natAbs : Nat) : ℚ) ≤ ((2 ^ 64 * scale1 * 1 : Nat) : ℚ) := by
        push_cast
        linarith
      exact_mod_cast h2
    obtain ⟨hfin, herr⟩ := round_error (decide (a.sval + b.sval < 0)) _ 1 Nat.one_pos hn
    have hval : sgn (decide (a.sval + b.sval < 0))
        * ((((a.sval + b.sval).natAbs : Nat) : ℚ) / ((1 : Nat) : ℚ) / scale1)
        = a.toRat + b.toRat := by
      rw [toRat_add_eq, int_eq_sgn_natAbs (a.sval + b.sval), Nat.cast_one, div_one]
      ring
    rw [hval, hq] at herr
    refine ⟨hfin, ?_, hvv⟩
    have h2 : |a.toRat + b.toRat| / 2 ^ 53 ≤ (A + εa + (B + εb)) / 2 ^ 53 :=
      div_le_div_of_nonneg_right hsum (by positivity)
    have h3 := eta_le
    have e : ∀ t : ℚ, t - (va + vb) = (t - (a.toRat + b.toRat)) + (a.toRat + b.toRat - (va + vb)) := by
      intro t
      ring
    rw [e]
    refine le_trans (abs_add _ _) ?_
    linarith

theorem sub (ha : Appr a va A εa) (hb : Appr b vb B εb)
    (hbound : A + εa + (B + εb) ≤ 2 ^ 64) :
    Appr (Double.sub a b) (va - vb) (A + B)
      (εa + εb + (A + εa + (B + εb)) / 2 ^ 53 + 1 / 2 ^ 200) := by
  have h := add ha hb.neg hbound
  rw [← sub_eq_add_neg] at h
  exact h

theorem div {L : ℚ} (ha : Appr a va A εa) (hb : Appr b vb B εb) (hL : 0 < L)
    (hvb : L + εb ≤ |vb|) (hbound : (A + εa) / L ≤ 2 ^ 64) :
    Appr (Double.div a b) (va / vb) (A / L)
      (εa / L + A * εb / (L * L) + (A + εa) / L / 2 ^ 53 + 1 / 2 ^ 200) := by
  have hS := scale1_posQ
  have hta := ha.abs_toRat_le
  have hεa := ha.eps_nonneg
  have hεb := hb.eps_nonneg
  have hA := ha.bound_nonneg
  have hvbL : L ≤ |vb| := by linarith
  have htbL : L ≤ |b.toRat| := by
    have h1 : |vb| - |b.toRat| ≤ |vb - b.toRat| := abs_sub_abs_le_abs_sub _ _
    have h2 : |vb - b.toRat| = |b.toRat - vb| := abs_sub_comm _ _
    have h3 := hb.2.1
    linarith
  have htb0 : b.toRat ≠ 0 := by
    intro h
    rw [h, abs_zero] at htbL
    linarith
  have hvb0 : vb ≠ 0 := by
    intro h
    rw [h, abs_zero] at hvbL
    linarith
  have hub : 0 < b.umag := by
    rcases Nat.eq_zero_or_pos b.umag with h | h
    · exfalso
      apply htb0
      rw [toRat_eq, h]
      simp
    · exact h
  have hubq : (0 : ℚ) < ((b.umag : Nat) : ℚ) := by exact_mod_cast hub
  have hquot : |a.toRat / b.toRat| ≤ (A + εa) / L := by
    rw [abs_div]
    exact div_le_div₀ (by linarith) hta hL htbL
  have hq : ((a.umag * scale1 : Nat) : ℚ) / ((b.umag : Nat) : ℚ) / scale1
      = |a.toRat / b.toRat| := by
    rw [abs_div, abs_toRat, abs_toRat]
    push_cast
    field_simp
    ring
  have hn : a.umag * scale1 ≤ 2 ^ 64 * scale1 * b.umag := by
    have h1 : ((a.umag * scale1 : Nat) : ℚ) / ((b.umag : Nat) : ℚ) / scale1 ≤ 2 ^ 64 := by
      rw [hq]
      exact le_trans hquot hbound
    rw [div_div, div_le_iff₀ (mul_pos hubq hS)] at h1
    have h2 : ((a.umag * scale1 : Nat) : ℚ) ≤ ((2 ^ 64 * scale1 * b.umag : Nat) : ℚ) := by
      push_cast
      push_cast at h1
      linarith
    exact_mod_cast h2
  obtain ⟨hfin, herr⟩ := round_error (xor a.sign b.sign) _ _ hub hn
  have hdiv : Double.div a b = round (xor a.sign b.sign) (a.umag * scale1) b.umag := by
    unfold Double.div
    simp [isNaN_eq_false_of_expo a ha.1, isNaN_eq_false_of_expo b hb.1,
      isInf_eq_false_of_expo a ha.1, isInf_eq_false_of_expo b hb.1, Nat.pos_iff_ne_zero.mp hub]
  rw [← hdiv] at hfin herr
  have hval : sgn (xor a.sign b.sign)
      * (((a.umag * scale1 : Nat) : ℚ) / ((b.umag : Nat) : ℚ) / scale1)
      = a.toRat / b.toRat := by
    rw [toRat_eq a, toRat_eq b, sgn_xor]
    push_cast
    have hs : sgn b.sign * sgn b.sign = 1 := by
      cases b.sign <;> simp [sgn]
    have hs0 : sgn b.sign ≠ 0 := by
      cases b.sign <;> simp [sgn]
    field_simp
    calc sgn a.sign * sgn b.sign * (↑a.umag * ↑scale1) * (sgn b.sign * ↑b.umag)
        = (sgn b.sign * sgn b.sign) * (sgn a.sign * ↑a.umag * ↑scale1 * ↑b.umag) := by ring
      _ = sgn a.sign * ↑a.umag * (↑b.umag * ↑scale1) := by rw [hs]; ring
  rw [hval, hq] at herr
  have hvq : |va / vb| ≤ A / L := by
    rw [abs_div]
    exact div_le_div₀ hA ha.2.2 hL hvbL
  refine ⟨hfin, ?_, hvq⟩
  have h1 : |a.toRat / b.toRat - va / vb| ≤ εa / L + A * εb / (L * L) := by
    have e : a.toRat / b.toRat - va / vb
        = (a.toRat - va) / b.toRat + va * (vb - b.toRat) / (b.toRat * vb) := by
      field_simp
      ring
    rw [e]
    refine le_trans (abs_add _ _) (add_le_add ?_ ?_)
    · rw [abs_div]
      exact div_le_div₀ hεa ha.2.1 hL htbL
    · rw [abs_div, abs_mul, abs_mul]
      have hnum : |va| * |vb - b.toRat| ≤ A * εb := by
        rw [abs_sub_comm]
        exact mul_le_mul ha.2.2 hb.2.1 (abs_nonneg _) hA
      have hden : L * L ≤ |b.toRat| * |vb| :=
        mul_le_mul htbL hvbL (le_of_lt hL) (abs_nonneg _)
      exact div_le_div₀ (mul_nonneg hA hεb) hnum (mul_pos hL hL) hden
  have h2 : |a.toRat / b.toRat| / 2 ^ 53 ≤ (A + εa) / L / 2 ^ 53 :=
    div_le_div_of_nonneg_right hquot (by positivity)
  have h3 := eta_le
  have e : (Double.div a b).toRat - va / vb
      = ((Double.div a b).toRat - a.toRat / b.toRat) + (a.toRat / b.toRat - va / vb) := by
    ring
  rw [e]
  refine le_trans (abs_add _ _) ?_
  linarith

theorem lit (num den : Nat) (hden : 0 < den) (hb : (num : ℚ) / den ≤ 2 ^ 64) :
    Appr (Double.lit num den) ((num : ℚ) / den) ((num : ℚ) / den)
      ((num : ℚ) / den / 2 ^ 53 + 1 / 2 ^ 200) := by
  have hS := scale1_posQ
  have hdq : (0 : ℚ) < den := by exact_mod_cast hden
  have hn : num * scale1 ≤ 2 ^ 64 * scale1 * den := by
    rw [div_le_iff₀ hdq] at hb
    have h2 : ((num : Nat) : ℚ) ≤ ((2 ^ 64 * den : Nat) : ℚ) := by
      push_cast
      linarith
    have h3 : num ≤ 2 ^ 64 * den := by exact_mod_cast h2
    calc num * scale1 ≤ 2 ^ 64 * den * scale1 := Nat.mul_le_mul_right _ h3
      _ = 2 ^ 64 * scale1 * den := by ring
  obtain ⟨hfin, herr⟩ := round_error false _ _ hden hn
  have hq : ((num * scale1 : Nat) : ℚ) / (den : ℚ) / scale1 = (num : ℚ) / den := by
    push_cast
    field_simp
    ring
  rw [hq] at herr
  have hs : sgn false = 1 := rfl
  rw [hs, one_mul] at herr
  have hpos : (0 : ℚ) ≤ (num : ℚ) / den := div_nonneg (Nat.cast_nonneg _) (Nat.cast_nonneg _)
  refine ⟨hfin, ?_, le_of_eq (abs_of_nonneg hpos)⟩
  have h3 := eta_le
  unfold Double.lit
  linarith

end Appr

/-! ## The final multiplication by the scale factor -/

/-- One rounding in the normal range: the error is relative only. -/
theorem round_error_normal (s : Bool) (n d : Nat) (hd : 0 < d) (hs : shiftOf (n / d) ≤ 2044)
    (hn : 2 ^ 53 ≤ n / d) :
    (round s n d).expo ≠ 2047 ∧
      |(round s n d).toRat - sgn s * ((n : ℚ) / d / scale1)| ≤ (n : ℚ) / d / scale1 / 2 ^ 53 := by
  obtain ⟨hlt, herr⟩ := roundMag_error n d hd hs
  obtain ⟨a1, a2, a3⟩ := shiftOf_spec (n / d)
  refine ⟨expo_ofMag_of_lt s _ hlt, ?_⟩
  have hS := scale1_posQ
  have hdq : (0 : ℚ) < d := by exact_mod_cast hd
  have h0 : 0 < shiftOf (n / d) := by
    rcases Nat.eq_zero_or_pos (shiftOf (n / d)) with h | h
    · exfalso
      rw [h] at a3
      rcases a3 with a3 | a3
      · exact absurd hn (Nat.not_le.mpr a3)
      · exact absurd a3 (by decide)
    · exact h
  have hhalf : (2 : ℚ) ^ shiftOf (n / d) / 2 ≤ (n : ℚ) / d / 2 ^ 53 := by
    have h1 : 2 ^ (52 + shiftOf (n / d)) ≤ n / d := a2 h0
    have h2 : (((n / d : Nat)) : ℚ) ≤ (n : ℚ) / d := Nat.cast_div_le
    have h3 : ((2 : ℚ)) ^ (52 + shiftOf (n / d)) ≤ (n : ℚ) / d := by
      refine le_trans ?_ h2
      exact_mod_cast h1
    rw [pow_add] at h3
    have h4 : (2 : ℚ) ^ shiftOf (n / d) / 2 = 2 ^ 52 * 2 ^ shiftOf (n / d) / 2 ^ 53 := by
      field_simp
      ring
    rw [h4]
    exact div_le_div_of_nonneg_right h3 (by positivity)
  have hval : (round s n d).toRat - sgn s * ((n : ℚ) / d / scale1)
      = sgn s * ((((umagBits (roundMag n d) : Nat) : ℚ) - (n : ℚ) / d) / scale1) := by
    rw [toRat_eq, sign_round, umag_round]
    field_simp
    ring
  rw [hval, abs_mul, abs_sgn, one_mul, abs_div, abs_of_pos hS, div_le_iff₀ hS]
  have e : ((n : ℚ) / d / scale1 / 2 ^ 53) * scale1 = (n : ℚ) / d / 2 ^ 53 := by
    field_simp
    ring
  rw [e]
  exact le_trans herr hhalf

theorem fast_exp_scale_eq (i : Int) (h1 : -1022 ≤ i) (h2 : i ≤ 1022) (e : Nat)
    (he : (e : Int) = i + 1023) (he2 : e < 2048) :
    fast_exp_scale i = ⟨false, e, 0, he2, Nat.two_pow_pos 52⟩ := by
  unfold fast_exp_scale
  rw [addBias_of_small i h1 h2, ← he, scaleBits_of_field e he2, ll2d_of_field e he2]

theorem pow_mul_pow2' (a n : Nat) : pow2 n * 2 ^ a = pow2 (n + a) := by
  unfold pow2
  rw [Nat.pow_add]

/-- Multiplying a datum of magnitude between `1/8` and `8` by the scale factor
`2^i` stays in the normal range and loses at most half a unit in the last
place. -/
theorem mul_scale_error (a : Double) (i : Int) (h1 : -1011 ≤ i) (h2 : i ≤ 1011)
    (ha : a.expo ≠ 2047) (hlo : 1 / 8 ≤ |a.toRat|) (hhi : |a.toRat| ≤ 8) :
    (mul a (fast_exp_scale i)).expo ≠ 2047 ∧
      |(mul a (fast_exp_scale i)).toRat - a.toRat * (2 : ℚ) ^ i|
        ≤ |a.toRat| * (2 : ℚ) ^ i / 2 ^ 53 := by
  obtain ⟨e, he⟩ : ∃ e : Nat, (e : Int) = i + 1023 := ⟨(i + 1023).toNat, by omega⟩
  have he1 : 12 ≤ e := by omega
  have he2 : e < 2048 := by omega
  have he3 : e ≤ 2034 := by omega
  have hsc := fast_exp_scale_eq i (by omega) (by omega) e he he2
  have hS := scale1_posQ
  have hne : ¬ e = 0 := by omega
  have hsfin : (fast_exp_scale i).expo ≠ 2047 := by
    rw [hsc]
    show e ≠ 2047
    omega
  have hus : (fast_exp_scale i).umag = 2 ^ 52 * 2 ^ (e - 1) := by
    rw [hsc]
    unfold umag
    rw [if_neg hne, Nat.add_zero]
  have hssign : (fast_exp_scale i).sign = false := by rw [hsc]
  have hst : (fast_exp_scale i).toRat = (2 : ℚ) ^ i := by
    have hx : (e : Int) - 1023 = i := by omega
    rw [hsc, toRat_pow_field e he2 (by omega), hx]
  have hstu : (((fast_exp_scale i).umag : Nat) : ℚ) / scale1 = (2 : ℚ) ^ i := by
    rw [← hst, toRat_eq, hssign]
    simp [sgn]
  have hlo' := hlo
  have hhi' := hhi
  rw [abs_toRat] at hlo' hhi'
  have hualo : scale1 ≤ 8 * a.umag := by
    rw [le_div_iff₀ hS] at hlo'
    have : ((scale1 : Nat) : ℚ) ≤ ((8 * a.umag : Nat) : ℚ) := by
      push_cast
      linarith
    exact_mod_cast this
  have huahi : a.umag ≤ 8 * scale1 := by
    rw [div_le_iff₀ hS] at hhi'
    have : ((a.umag : Nat) : ℚ) ≤ ((8 * scale1 : Nat) : ℚ) := by
      push_cast
      linarith
    exact_mod_cast this
  rw [mul_of_finite a _ ha hsfin, hssign, hus]
  have hnlo : 2 ^ 53 ≤ a.umag * (2 ^ 52 * 2 ^ (e - 1)) / scale1 := by
    rw [Nat.le_div_iff_mul_le scale1_pos]
    have h4 : 2 ^ 53 * 8 ≤ 2 ^ 52 * 2 ^ (e - 1) := by
      have : (2 : Nat) ^ 4 ≤ 2 ^ (e - 1) := two_pow_le_two_pow (by omega)
      calc 2 ^ 53 * 8 = 2 ^ 52 * 2 ^ 4 := by norm_num
        _ ≤ 2 ^ 52 * 2 ^ (e - 1) := Nat.mul_le_mul_left _ this
    calc 2 ^ 53 * scale1 ≤ 2 ^ 53 * (8 * a.umag) := Nat.mul_le_mul_left _ hualo
      _ = a.umag * (2 ^ 53 * 8) := by ring
      _ ≤ a.umag * (2 ^ 52 * 2 ^ (e - 1)) := Nat.mul_le_mul_left _ h4
  have hnhi : shiftOf (a.umag * (2 ^ 52 * 2 ^ (e - 1)) / scale1) ≤ 2044 := by
    have hq : a.umag * (2 ^ 52 * 2 ^ (e - 1)) / scale1 ≤ 8 * (2 ^ 52 * 2 ^ (e - 1)) := by
      apply Nat.div_le_of_le_mul
      calc a.umag * (2 ^ 52 * 2 ^ (e - 1)) ≤ 8 * scale1 * (2 ^ 52 * 2 ^ (e - 1)) :=
            Nat.mul_le_mul_right _ huahi
        _ = scale1 * (8 * (2 ^ 52 * 2 ^ (e - 1))) := by ring
    have hq2 : 8 * (2 ^ 52 * 2 ^ (e - 1)) < 2 ^ (53 + (e + 2)) := by
      have e1 : 8 * (2 ^ 52 * 2 ^ (e - 1)) = 2 ^ (55 + (e - 1)) := by
        rw [Nat.pow_add]
        norm_num
        ring
      rw [e1]
      exact Nat.pow_lt_pow_right (by norm_num) (by omega)
    have := shiftOf_lt_of_lt (j := e + 2) rfl (Nat.lt_of_le_of_lt hq hq2)
    omega
  obtain ⟨hfin, herr⟩ := round_error_normal (xor a.sign false) _ _ scale1_pos hnhi hnlo
  refine ⟨hfin, ?_⟩
  have hq : ((a.umag * (2 ^ 52 * 2 ^ (e - 1)) : Nat) : ℚ) / (scale1 : ℚ) / scale1
      = ((a.umag : Nat) : ℚ) / scale1 * (2 : ℚ) ^ i := by
    rw [← hstu, hus]
    push_cast
    field_simp
  rw [hq] at herr
  have hval : sgn (xor a.sign false) * (((a.umag : Nat) : ℚ) / scale1 * (2 : ℚ) ^ i)
      = a.toRat * (2 : ℚ) ^ i := by
    rw [toRat_eq a]
    simp only [Bool.xor_false]
    ring
  rw [hval] at herr
  rw [abs_toRat]
  exact herr

/-! ## Conversions between `int` and `double` -/

theorem toRat_ofInt (i : Int) (h1 : -1022 ≤ i) (h2 : i ≤ 1022) : (ofInt i).toRat = (i : ℚ) := by
  have hS := scale1_posQ
  rw [toRat_eq, (ofInt_spec i h1 h2).1, int_eq_sgn_natAbs i]
  have : (ofInt i).sign = decide (i < 0) := rfl
  rw [this]
  push_cast
  field_simp
  ring

theorem Appr.ofInt (i : Int) (h1 : -1022 ≤ i) (h2 : i ≤ 1022) :
    Appr (ofInt i) (i : ℚ) |(i : ℚ)| 0 := by
  refine ⟨(ofInt_spec i h1 h2).2, ?_, le_refl _⟩
  rw [toRat_ofInt i h1 h2]
  simp

/-- The conversion to `int` of a finite datum of magnitude at most 2000 is
defined; it differs from the datum by less than 1 and is no larger in
magnitude. -/
theorem truncInt_spec (t : Double) (hfin : t.expo ≠ 2047) (hb : |t.toRat| ≤ 2000) :
    ∃ i : Int, truncInt t = some i ∧ |(i : ℚ) - t.toRat| < 1 ∧ |(i : ℚ)| ≤ |t.toRat| := by
  have hS := scale1_posQ
  have hq1 : (((t.umag / scale1 : Nat)) : ℚ) ≤ ((t.umag : Nat) : ℚ) / scale1 := Nat.cast_div_le
  have hq2 : ((t.umag : Nat) : ℚ) / scale1 < (((t.umag / scale1 : Nat)) : ℚ) + 1 := by
    rw [div_lt_iff₀ hS]
    have := Nat.lt_succ_iff.mpr (Nat.le_refl (t.umag / scale1))
    have h3 : t.umag < (t.umag / scale1 + 1) * scale1 := by
      have := Nat.div_add_mod t.umag scale1
      have hm := Nat.mod_lt t.umag scale1_pos
      calc t.umag = scale1 * (t.umag / scale1) + t.umag % scale1 := this.symm
        _ < scale1 * (t.umag / scale1) + scale1 := Nat.add_lt_add_left hm _
        _ = (t.umag / scale1 + 1) * scale1 := by ring
    exact_mod_cast h3
  rw [abs_toRat] at hb
  have hq3 : t.umag / scale1 ≤ 2000 := by
    have : (((t.umag / scale1 : Nat)) : ℚ) ≤ ((2000 : Nat) : ℚ) := by
      push_cast
      linarith
    exact_mod_cast this
  have hy0 : (0 : ℚ) ≤ ((t.umag : Nat) : ℚ) / scale1 := div_nonneg (Nat.cast_nonneg _) (le_of_lt hS)
  have hval : t.toRat = sgn t.sign * (((t.umag : Nat) : ℚ) / scale1) := by
    rw [toRat_eq]
    ring
  unfold truncInt
  rw [isFinite_of_expo t hfin, hval]
  simp only [if_true]
  generalize t.umag / scale1 = q at hq1 hq2 hq3
  generalize ((t.umag : Nat) : ℚ) / scale1 = y at hq1 hq2 hy0
  have hq0 : (0 : ℚ) ≤ (q : ℚ) := Nat.cast_nonneg q
  cases t.sign
  · refine ⟨(q : Int), ?_, ?_, ?_⟩
    · simp only [Bool.false_eq_true, if_false]
      rw [if_pos]
      constructor <;> omega
    · simp only [sgn, Bool.false_eq_true, if_false, one_mul, Int.cast_natCast]
      rw [abs_lt]
      constructor <;> linarith
    · simp only [sgn, Bool.false_eq_true, if_false, one_mul, Int.cast_natCast]
      rw [abs_of_nonneg hq0, abs_of_nonneg hy0]
      exact hq1
  · refine ⟨-(q : Int), ?_, ?_, ?_⟩
    · simp only [if_true]
      rw [if_pos]
      constructor <;> omega
    · simp only [sgn, if_true, Int.cast_neg, Int.cast_natCast]
      rw [abs_lt]
      constructor <;> linarith
    · simp only [sgn, if_true, Int.cast_neg, Int.cast_natCast, neg_mul, one_mul, abs_neg]
      rw [abs_of_nonneg hq0, abs_of_nonneg hy0]
      exact hq1

theorem Appr.lit_of_eq (num den : Nat) {v A ε : ℚ} (hden : 0 < den) (hv : (num : ℚ) / den = v)
    (hA : v ≤ A) (hA2 : A ≤ 2 ^ 64) (hε : A / 2 ^ 53 + 1 / 2 ^ 200 ≤ ε) :
    Appr (Double.lit num den) v A ε := by
  have h := Appr.lit num den hden (by rw [hv]; linarith)
  rw [hv] at h
  refine h.mono hA (le_trans ?_ hε)
  have : v / 2 ^ 53 ≤ A / 2 ^ 53 := div_le_div_of_nonneg_right hA (by positivity)
  linarith

/-! ## Range reduction of `fast_exp` -/

/-- For `|x| <= 700` the conversion to `int` is defined and yields an `i` within
`1 + 1e-12` of `LOG2E * x + 0.5`; the reduced argument approximates
`x - i * C1 - i * C2` within `1e-12`. -/
theorem fast_exp_reduce_appr (x : Double) (hfin : x.expo ≠ 2047) (hX : |x.toRat| ≤ 700) :
    ∃ i : Int, truncInt (add (mul LOG2E x) half) = some i ∧ fast_exp_n x = i ∧
      -1011 ≤ i ∧ i ≤ 1011 ∧
      |(i : ℚ) - (qLOG2E * x.toRat + 1 / 2)| < 1 + 1 / 10 ^ 12 ∧
      Appr (fast_exp_reduce x) (x.toRat - (i : ℚ) * qC1 - (i : ℚ) * qC2) 1401 (1 / 10 ^ 12) := by
  have hx : Appr x x.toRat 700 0 := ⟨hfin, by simp, hX⟩
  have hL : Appr LOG2E qLOG2E (14427 / 10 ^ 4) (17 / 10 ^ 17) :=
    Appr.lit_of_eq 14426950408889634073599 (10 ^ 22) (by norm_num) (by norm_num [qLOG2E]) (by norm_num [qLOG2E])
      (by norm_num) (by norm_num)
  have h1 : Appr _ _ (10099 / 10 ^ 1) (24 / 10 ^ 14) :=
    (Appr.mul hL hx (by norm_num)).mono (by norm_num) (by norm_num)
  have hh : Appr half (1 / 2) (5 / 10 ^ 1) (56 / 10 ^ 18) :=
    Appr.lit_of_eq 5 10 (by norm_num) (by norm_num) (by norm_num)
      (by norm_num) (by norm_num)
  have ht : Appr _ _ (10104 / 10 ^ 1) (36 / 10 ^ 14) :=
    (Appr.add h1 hh (by norm_num)).mono (by norm_num) (by norm_num)
  have hT := ht.abs_toRat_le
  obtain ⟨i, hi, hi1, hi2⟩ := truncInt_spec _ ht.1 (le_trans hT (by norm_num))
  have hiq : |(i : ℚ)| ≤ 1011 := by
    have h3 : |(i : ℚ)| < 1011 + 1 := lt_of_le_of_lt (le_trans hi2 hT) (by norm_num)
    have h4 : |i| < 1011 + 1 := by exact_mod_cast h3
    have h5 : |i| ≤ 1011 := by omega
    exact_mod_cast h5
  have hi3 : -1011 ≤ i ∧ i ≤ 1011 := by
    have h5 : |i| ≤ 1011 := by exact_mod_cast hiq
    exact abs_le.mp h5
  have hpx0 : fast_exp_px x = ofInt i := by
    unfold fast_exp_px toInt
    rw [hi]
    rfl
  have hn : fast_exp_n x = i := by
    unfold fast_exp_n
    rw [hpx0]
    exact toInt_ofInt_of_small i (by omega) (by omega)
  have hpx : Appr (ofInt i) (i : ℚ) 1011 0 :=
    (Appr.ofInt i (by omega) (by omega)).mono hiq (le_refl _)
  have hC1 : Appr (Double.lit 693145751953125 (10 ^ 15)) qC1 (69315 / 10 ^ 5) (77 / 10 ^ 18) :=
    Appr.lit_of_eq 693145751953125 (10 ^ 15) (by norm_num) (by norm_num [qC1]) (by norm_num [qC1])
      (by norm_num) (by norm_num)
  have hm1 : Appr _ _ (70078 / 10 ^ 2) (16 / 10 ^ 14) :=
    (Appr.mul hpx hC1 (by norm_num)).mono (by norm_num) (by norm_num)
  have hr1 : Appr _ _ (14008 / 10 ^ 1) (32 / 10 ^ 14) :=
    (Appr.sub hx hm1 (by norm_num)).mono (by norm_num) (by norm_num)
  have hC2 : Appr (Double.lit 142860682030941723212 (10 ^ 26)) qC2 (14287 / 10 ^ 10) (16 / 10 ^ 23) :=
    Appr.lit_of_eq 142860682030941723212 (10 ^ 26) (by norm_num) (by norm_num [qC2]) (by norm_num [qC2])
      (by norm_num) (by norm_num)
  have hm2 : Appr _ _ (14445 / 10 ^ 7) (33 / 10 ^ 20) :=
    (Appr.mul hpx hC2 (by norm_num)).mono (by norm_num) (by norm_num)
  have hr : Appr _ _ (14009 / 10 ^ 1) (48 / 10 ^ 14) :=
    (Appr.sub hr1 hm2 (by norm_num)).mono (by norm_num) (by norm_num)
  refine ⟨i, hi, hn, hi3.1, hi3.2, ?_, ?_⟩
  · have e : (i : ℚ) - (qLOG2E * x.toRat + 1 / 2)
        = ((i : ℚ) - (add (mul LOG2E x) half).toRat)
          + ((add (mul LOG2E x) half).toRat - (qLOG2E * x.toRat + 1 / 2)) := by ring
    rw [e]
    refine lt_of_le_of_lt (abs_add _ _) ?_
    have := ht.2.1
    linarith
  · have hred : fast_exp_reduce x
        = sub (sub x (mul (ofInt i) (Double.lit 693145751953125 (10 ^ 15))))
            (mul (ofInt i) (Double.lit 142860682030941723212 (10 ^ 26))) := by
      unfold fast_exp_reduce
      rw [hpx0]
    rw [hred]
    exact hr.mono (by norm_num) (by norm_num)

/-! ## The rational approximation of `fast_exp` against a Taylor polynomial -/

theorem peval_nil (v : ℚ) : peval [] v = 0 := rfl

theorem peval_cons (c : ℚ) (cs : List ℚ) (v : ℚ) : peval (c :: cs) v = c + v * peval cs v := rfl

theorem peval_padd (as bs : List ℚ) (v : ℚ) : peval (padd as bs) v = peval as v + peval bs v := by
  induction as generalizing bs with
  | nil => simp [padd, peval_nil]
  | cons a as ih =>
    cases bs with
    | nil => simp [padd, peval_nil]
    | cons b bs =>
      simp only [padd, peval_cons, ih]
      ring

theorem peval_pscale (c : ℚ) (as : List ℚ) (v : ℚ) : peval (pscale c as) v = c * peval as v := by
  induction as with
  | nil => simp [pscale, peval_nil]
  | cons a as ih =>
    have : pscale c (a :: as) = (c * a) :: pscale c as := rfl
    rw [this, peval_cons, peval_cons, ih]
    ring

theorem peval_pmul (as bs : List ℚ) (v : ℚ) : peval (pmul as bs) v = peval as v * peval bs v := by
  induction as with
  | nil => simp [pmul, peval_nil]
  | cons a as ih =>
    simp only [pmul, peval_padd, peval_pscale, peval_cons, ih]
    ring

theorem abs_peval_le (cs : List ℚ) (v B : ℚ) (hv : |v| ≤ B) :
    |peval cs v| ≤ peval (cs.map (fun c => |c|)) B := by
  induction cs with
  | nil => simp [peval_nil]
  | cons c cs ih =>
    have hB : 0 ≤ B := le_trans (abs_nonneg _) hv
    rw [List.map_cons, peval_cons, peval_cons]
    refine le_trans (abs_add _ _) (add_le_add (le_refl _) ?_)
    rw [abs_mul]
    exact mul_le_mul hv ih (abs_nonneg _) hB

theorem expN_eq (v : ℚ) : expQ (v * v) + expP (v * v) * v = peval expNs v := by
  simp only [expNs, peval_cons, peval_nil, expP, expQ]
  ring

theorem expD_eq (v : ℚ) : expQ (v * v) - expP (v * v) * v = peval expDs v := by
  simp only [expDs, peval_cons, peval_nil, expP, expQ]
  ring

theorem expDs_tail_bound :
    (104 / 100 : ℚ) * peval ([-qPX3, qQX3, -qPX2, qQX2, -qPX1, qQX1].map (fun c => |c|)) (104 / 100)
      ≤ qQX4 - 67 / 100 := by
  decide!

theorem expRs_bound : peval (expRs.map (fun c => |c|)) (104 / 100) ≤ 21 / 10 ^ 13 := by
  decide!

/-- The denominator `Q(v^2) - v P(v^2)` stays above `0.67` for `|v| <= 1.04`. -/
theorem expD_lower (v : ℚ) (hv : |v| ≤ 104 / 100) :
    67 / 100 ≤ expQ (v * v) - expP (v * v) * v := by
  rw [expD_eq]
  have h1 : peval expDs v = qQX4 + v * peval [-qPX3, qQX3, -qPX2, qQX2, -qPX1, qQX1] v := rfl
  have h2 := abs_peval_le [-qPX3, qQX3, -qPX2, qQX2, -qPX1, qQX1] v (104 / 100) hv
  have h3 : |v * peval [-qPX3, qQX3, -qPX2, qQX2, -qPX1, qQX1] v|
      ≤ (104 / 100 : ℚ) * peval ([-qPX3, qQX3, -qPX2, qQX2, -qPX1, qQX1].map (fun c => |c|))
          (104 / 100) := by
    rw [abs_mul]
    exact mul_le_mul hv h2 (abs_nonneg _) (by norm_num)
  have h4 := expDs_tail_bound
  have h5 := (abs_le.mp (le_trans h3 h4)).1
  rw [h1]
  linarith

/-- The exact rational function of `fast_exp` is within `3.2e-12` of the Taylor
polynomial of degree 15 for `|v| <= 1.04`. -/
theorem expF_sub_expT (v : ℚ) (hv : |v| ≤ 104 / 100) : |expF v - expT v| ≤ 32 / 10 ^ 13 := by
  have hD := expD_lower v hv
  have hD0 : expQ (v * v) - expP (v * v) * v ≠ 0 := by
    intro h
    rw [h] at hD
    norm_num at hD
  have hDpos : 0 < expQ (v * v) - expP (v * v) * v := by linarith
  have hres : peval expRs v = peval expNs v - expT v * peval expDs v := by
    unfold expRs expT
    rw [peval_padd, peval_pscale, peval_pmul]
    ring
  have hF : expF v - expT v = peval expRs v / (expQ (v * v) - expP (v * v) * v) := by
    rw [hres, ← expN_eq, ← expD_eq]
    unfold expF
    field_simp
    ring
  rw [hF, abs_div, abs_of_pos hDpos, div_le_iff₀ hDpos]
  have h1 := abs_peval_le expRs v (104 / 100) hv
  have h2 := expRs_bound
  calc |peval expRs v| ≤ 21 / 10 ^ 13 := le_trans h1 h2
    _ ≤ 32 / 10 ^ 13 * (67 / 100) := by norm_num
    _ ≤ 32 / 10 ^ 13 * (expQ (v * v) - expP (v * v) * v) :=
        mul_le_mul_of_nonneg_left hD (by norm_num)

/-! ## The polynomial stage of `fast_exp` -/

/-- The reduced argument is at most `1.04` in magnitude. -/
theorem reduced_range (X : ℚ) (i : Int) (hi1 : -1011 ≤ i) (hi2 : i ≤ 1011)
    (h : |(i : ℚ) - (qLOG2E * X + 1 / 2)| < 1 + 1 / 10 ^ 12) :
    |X - (i : ℚ) * qC1 - (i : ℚ) * qC2| ≤ 104 / 100 := by
  have h1 : (-1011 : ℚ) ≤ (i : ℚ) := by exact_mod_cast hi1
  have h2 : (i : ℚ) ≤ 1011 := by exact_mod_cast hi2
  rw [abs_lt] at h
  obtain ⟨h3, h4⟩ := h
  simp only [qLOG2E] at h3 h4
  simp only [qC1, qC2]
  rw [abs_le]
  constructor <;> linarith

/-- From a reduced argument `r` within `1e-12` of `v`, `|v| <= 1.04`, the code
computes `1 + 2 * (px / (qx - px))` within `1.4e-11` of the exact value of the
rational function at `v`. -/
theorem fast_exp_poly_appr (r : Double) (v : ℚ) (hr : Appr r v (104 / 100) (1 / 10 ^ 12)) :
    Appr (add one (mul two (fast_exp_ratio r))) (expF v) (42558 / 10 ^ 4) (14 / 10 ^ 12) := by
  have hxx : Appr _ _ (10816 / 10 ^ 4) (21 / 10 ^ 13) :=
    (Appr.mul hr hr (by norm_num)).mono (by norm_num) (by norm_num)
  have hP1 : Appr PX1exp qPX1 (12618 / 10 ^ 8) (15 / 10 ^ 21) :=
    Appr.lit_of_eq 126177193074810590878 (10 ^ 24) (by norm_num) (by norm_num [qPX1]) (by norm_num [qPX1])
      (by norm_num) (by norm_num)
  have hP2 : Appr PX2exp qPX2 (303 / 10 ^ 4) (34 / 10 ^ 19) :=
    Appr.lit_of_eq 302994407707441961300 (10 ^ 22) (by norm_num) (by norm_num [qPX2]) (by norm_num [qPX2])
      (by norm_num) (by norm_num)
  have hP3 : Appr PX3exp qPX3 (1) (12 / 10 ^ 17) :=
    Appr.lit_of_eq 999999999999999999910 (10 ^ 21) (by norm_num) (by norm_num [qPX3]) (by norm_num [qPX3])
      (by norm_num) (by norm_num)
  have hQ1 : Appr QX1exp qQX1 (3002 / 10 ^ 9) (34 / 10 ^ 23) :=
    Appr.lit_of_eq 300198505138664455042 (10 ^ 26) (by norm_num) (by norm_num [qQX1]) (by norm_num [qQX1])
      (by norm_num) (by norm_num)
  have hQ2 : Appr QX2exp qQX2 (25245 / 10 ^ 7) (29 / 10 ^ 20) :=
    Appr.lit_of_eq 252448340349684104192 (10 ^ 23) (by norm_num) (by norm_num [qQX2]) (by norm_num [qQX2])
      (by norm_num) (by norm_num)
  have hQ3 : Appr QX3exp qQX3 (22727 / 10 ^ 5) (26 / 10 ^ 18) :=
    Appr.lit_of_eq 227265548208155028766 (10 ^ 21) (by norm_num) (by norm_num [qQX3]) (by norm_num [qQX3])
      (by norm_num) (by norm_num)
  have hQ4 : Appr QX4exp qQX4 (20001 / 10 ^ 4) (23 / 10 ^ 17) :=
    Appr.lit_of_eq 200000000000000000009 (10 ^ 20) (by norm_num) (by norm_num [qQX4]) (by norm_num [qQX4])
      (by norm_num) (by norm_num)
  have hp1 : Appr _ _ (13648 / 10 ^ 8) (27 / 10 ^ 17) :=
    (Appr.mul hP1 hxx (by norm_num)).mono (by norm_num) (by norm_num)
  have hp2 : Appr _ _ (30437 / 10 ^ 6) (28 / 10 ^ 17) :=
    (Appr.add hp1 hP2 (by norm_num)).mono (by norm_num) (by norm_num)
  have hp3 : Appr _ _ (32921 / 10 ^ 6) (65 / 10 ^ 15) :=
    (Appr.mul hp2 hxx (by norm_num)).mono (by norm_num) (by norm_num)
  have hp4 : Appr _ _ (1033 / 10 ^ 3) (66 / 10 ^ 15) :=
    (Appr.add hp3 hP3 (by norm_num)).mono (by norm_num) (by norm_num)
  have hp5 : Appr _ _ (10744 / 10 ^ 4) (12 / 10 ^ 13) :=
    (Appr.mul hp4 hr (by norm_num)).mono (by norm_num) (by norm_num)
  have hq1 : Appr _ _ (3247 / 10 ^ 9) (64 / 10 ^ 19) :=
    (Appr.mul hQ1 hxx (by norm_num)).mono (by norm_num) (by norm_num)
  have hq2 : Appr _ _ (25278 / 10 ^ 7) (7 / 10 ^ 18) :=
    (Appr.add hq1 hQ2 (by norm_num)).mono (by norm_num) (by norm_num)
  have hq3 : Appr _ _ (27341 / 10 ^ 7) (54 / 10 ^ 16) :=
    (Appr.mul hq2 hxx (by norm_num)).mono (by norm_num) (by norm_num)
  have hq4 : Appr _ _ (23001 / 10 ^ 5) (55 / 10 ^ 16) :=
    (Appr.add hq3 hQ3 (by norm_num)).mono (by norm_num) (by norm_num)
  have hq5 : Appr _ _ (24878 / 10 ^ 5) (49 / 10 ^ 14) :=
    (Appr.mul hq4 hxx (by norm_num)).mono (by norm_num) (by norm_num)
  have hq6 : Appr _ _ (22489 / 10 ^ 4) (5 / 10 ^ 13) :=
    (Appr.add hq5 hQ4 (by norm_num)).mono (by norm_num) (by norm_num)
  have hden : Appr _ _ (33233 / 10 ^ 4) (18 / 10 ^ 13) :=
    (Appr.sub hq6 hp5 (by norm_num)).mono (by norm_num) (by norm_num)
  have hvb : (66 / 100 : ℚ) + 18 / 10 ^ 13 ≤ |expQ (v * v) - expP (v * v) * v| := by
    have h := expD_lower v hr.2.2
    rw [abs_of_pos (by linarith)]
    linarith
  have hrat : Appr _ _ (16279 / 10 ^ 4) (63 / 10 ^ 13) :=
    (Appr.div hp5 hden (by norm_num) hvb (by norm_num)).mono (by norm_num) (by norm_num)
  have htwo : Appr two 2 (2) (23 / 10 ^ 17) :=
    Appr.lit_of_eq 2 1 (by norm_num) (by norm_num) (by norm_num)
      (by norm_num) (by norm_num)
  have hone : Appr one 1 (1) (12 / 10 ^ 17) :=
    Appr.lit_of_eq 1 1 (by norm_num) (by norm_num) (by norm_num)
      (by norm_num) (by norm_num)
  have ht2 : Appr _ _ (32558 / 10 ^ 4) (13 / 10 ^ 12) :=
    (Appr.mul htwo hrat (by norm_num)).mono (by norm_num) (by norm_num)
  have hF : Appr _ _ (42558 / 10 ^ 4) (14 / 10 ^ 12) :=
    (Appr.add hone ht2 (by norm_num)).mono (by norm_num) (by norm_num)
  exact hF

/-! ## The real exponential and logarithm -/

theorem halfLogSum_cast (n : Nat) :
    (∑ k ∈ Finset.range n, ((1 / 2 : ℝ)) ^ (k + 1) / ((k : ℝ) + 1)) = ((halfLogSum n : ℚ) : ℝ) := by
  induction n with
  | zero => simp [halfLogSum]
  | succ n ih =>
    rw [Finset.sum_range_succ, ih, halfLogSum]
    push_cast
    ring

theorem halfLogSum_near : |halfLogSum 52 - (qC1 + qC2)| ≤ 1 / 10 ^ 17 := by decide!

/-- The split constant `C1 + C2` of the header agrees with `log 2` to `3e-16`. -/
theorem log_two_near : |Real.log 2 - ((qC1 + qC2 : ℚ) : ℝ)| ≤ 3 / 10 ^ 16 := by
  have t : |(1 / 2 : ℝ)| = 1 / 2 := abs_of_pos (by norm_num)
  have z := Real.abs_log_sub_add_sum_range_le (show |(1 / 2 : ℝ)| < 1 by rw [t]; norm_num) 52
  rw [t, halfLogSum_cast] at z
  have hl : Real.log (1 - 1 / 2) = -Real.log 2 := by
    have : (1 - 1 / 2 : ℝ) = 2⁻¹ := by norm_num
    rw [this, Real.log_inv]
  rw [hl] at z
  have h1 : ((1 / 2 : ℝ)) ^ (52 + 1) / (1 - 1 / 2) ≤ 23 / 10 ^ 17 := by norm_num
  have h2 : |((halfLogSum 52 : ℚ) : ℝ) - ((qC1 + qC2 : ℚ) : ℝ)| ≤ 1 / 10 ^ 17 := by
    have := halfLogSum_near
    have h3 : ((|halfLogSum 52 - (qC1 + qC2)| : ℚ) : ℝ) ≤ ((1 / 10 ^ 17 : ℚ) : ℝ) := by
      exact_mod_cast this
    push_cast at h3
    push_cast
    exact h3
  have e : Real.log 2 - ((qC1 + qC2 : ℚ) : ℝ)
      = -(((halfLogSum 52 : ℚ) : ℝ) + -Real.log 2)
        + (((halfLogSum 52 : ℚ) : ℝ) - ((qC1 + qC2 : ℚ) : ℝ)) := by ring
  rw [e]
  refine le_trans (abs_add _ _) ?_
  rw [abs_neg]
  have := le_trans z h1
  linarith

/-- The Taylor bound of the exponential with the hypothesis `|x| / (n + 1) <= 1/2`. -/
theorem real_exp_bound {x : ℝ} {n : ℕ} (hx : |x| / (n.succ : ℝ) ≤ 1 / 2) :
    |Real.exp x - ∑ m ∈ Finset.range n, x ^ m / (m.factorial : ℝ)|
      ≤ |x| ^ n / (n.factorial : ℝ) * 2 := by
  have hxc : Complex.abs (x : ℂ) / (n.succ : ℝ) ≤ 1 / 2 := by
    rw [Complex.abs_ofReal]
    exact hx
  have h := Complex.exp_bound' hxc
  rw [Complex.abs_ofReal] at h
  have e : Complex.exp (x : ℂ) - ∑ m ∈ Finset.range n, (x : ℂ) ^ m / (m.factorial : ℂ)
      = ((Real.exp x - ∑ m ∈ Finset.range n, x ^ m / (m.factorial : ℝ) : ℝ) : ℂ) := by
    push_cast
    rfl
  rw [e, Complex.abs_ofReal] at h
  exact h

theorem expT_cast (v : ℚ) :
    (∑ m ∈ Finset.range 16, (v : ℝ) ^ m / (m.factorial : ℝ)) = ((expT v : ℚ) : ℝ) := by
  simp only [expT, tayFrom, peval_cons, peval_nil, Finset.sum_range_succ, Finset.sum_range_zero,
    Nat.factorial]
  push_cast
  ring

/-- The Taylor polynomial of degree 15 is within `2e-13` of the exponential for
`|v| <= 1.04`. -/
theorem exp_sub_expT (v : ℚ) (hv : |v| ≤ 104 / 100) :
    |Real.exp (v : ℝ) - ((expT v : ℚ) : ℝ)| ≤ 2 / 10 ^ 13 := by
  have hvr : |(v : ℝ)| ≤ 104 / 100 := by
    have h3 : ((|v| : ℚ) : ℝ) ≤ ((104 / 100 : ℚ) : ℝ) := by exact_mod_cast hv
    push_cast at h3
    exact h3
  have hx : |(v : ℝ)| / ((16 : ℕ).succ : ℝ) ≤ 1 / 2 := by
    rw [div_le_iff₀ (by positivity)]
    norm_num
    linarith
  have h := real_exp_bound hx
  rw [expT_cast] at h
  refine le_trans h ?_
  have hp : |(v : ℝ)| ^ 16 ≤ (104 / 100 : ℝ) ^ 16 :=
    pow_le_pow_left₀ (abs_nonneg _) hvr 16
  have hf : ((16 : ℕ).factorial : ℝ) = 20922789888000 := by
    norm_num [Nat.factorial]
  rw [hf]
  calc |(v : ℝ)| ^ 16 / 20922789888000 * 2 ≤ (104 / 100 : ℝ) ^ 16 / 20922789888000 * 2 := by
        gcongr
    _ ≤ 2 / 10 ^ 13 := by norm_num

/-! ## The relative error of `fast_exp` -/

theorem expNs_tail_bound :
    (104 / 100 : ℚ) * peval ([qPX3, qQX3, qPX2, qQX2, qPX1, qQX1].map (fun c => |c|)) (104 / 100)
      ≤ qQX4 - 67 / 100 := by
  decide!

theorem expDs_tail_upper :
    qQX4 + (104 / 100 : ℚ)
        * peval ([-qPX3, qQX3, -qPX2, qQX2, -qPX1, qQX1].map (fun c => |c|)) (104 / 100)
      ≤ 335 / 100 := by
  decide!

/-- The exact rational function stays above `1/5` for `|v| <= 1.04`. -/
theorem expF_lower (v : ℚ) (hv : |v| ≤ 104 / 100) : 1 / 5 ≤ expF v := by
  have hD := expD_lower v hv
  have hDpos : 0 < expQ (v * v) - expP (v * v) * v := by linarith
  have hN : 67 / 100 ≤ expQ (v * v) + expP (v * v) * v := by
    rw [expN_eq]
    have h1 : peval expNs v = qQX4 + v * peval [qPX3, qQX3, qPX2, qQX2, qPX1, qQX1] v := rfl
    have h2 := abs_peval_le [qPX3, qQX3, qPX2, qQX2, qPX1, qQX1] v (104 / 100) hv
    have h3 : |v * peval [qPX3, qQX3, qPX2, qQX2, qPX1, qQX1] v|
        ≤ (104 / 100 : ℚ) * peval ([qPX3, qQX3, qPX2, qQX2, qPX1, qQX1].map (fun c => |c|))
            (104 / 100) := by
      rw [abs_mul]
      exact mul_le_mul hv h2 (abs_nonneg _) (by norm_num)
    have h5 := (abs_le.mp (le_trans h3 expNs_tail_bound)).1
    rw [h1]
    linarith
  have hDu : expQ (v * v) - expP (v * v) * v ≤ 335 / 100 := by
    rw [expD_eq]
    have h1 : peval expDs v = qQX4 + v * peval [-qPX3, qQX3, -qPX2, qQX2, -qPX1, qQX1] v := rfl
    have h2 := abs_peval_le [-qPX3, qQX3, -qPX2, qQX2, -qPX1, qQX1] v (104 / 100) hv
    have h3 : |v * peval [-qPX3, qQX3, -qPX2, qQX2, -qPX1, qQX1] v|
        ≤ (104 / 100 : ℚ) * peval ([-qPX3, qQX3, -qPX2, qQX2, -qPX1, qQX1].map (fun c => |c|))
            (104 / 100) := by
      rw [abs_mul]
      exact mul_le_mul hv h2 (abs_nonneg _) (by norm_num)
    have h5 := (abs_le.mp h3).2
    have h6 := expDs_tail_upper
    rw [h1]
    linarith
  have hF : expF v = (expQ (v * v) + expP (v * v) * v) / (expQ (v * v) - expP (v * v) * v) := by
    unfold expF
    field_simp
    ring
  rw [hF, le_div_iff₀ hDpos]
  linarith

theorem exp_scale_split (X v c : ℝ) (i : Int) (h : X = v + (i : ℝ) * c) :
    Real.exp X = Real.exp v * Real.exp ((i : ℝ) * (c - Real.log 2)) * (2 : ℝ) ^ i := by
  have e : X = v + (i : ℝ) * (c - Real.log 2) + (i : ℝ) * Real.log 2 := by
    rw [h]
    ring
  have h2 : Real.exp ((i : ℝ) * Real.log 2) = (2 : ℝ) ^ i := by
    rw [mul_comm, Real.exp_mul, Real.exp_log (by norm_num), Real.rpow_intCast]
  rw [e, Real.exp_add, Real.exp_add, h2]

theorem sval_lit_700 : (Double.lit 700 1).sval = 700 * (scale1 : Int) := by decide!

theorem lit_700_lt_infMag : 700 * scale1 < infMag := by decide!

theorem sval_700_lt_EXP_LIMIT : (Double.lit 700 1).sval < EXP_LIMIT.sval := by decide!

/-- A datum with `-700 <= x <= 700` is finite, of magnitude at most 700, and
outside both saturation tests of `fast_exp`. -/
theorem range_700 (x : Double) (hlo : le (neg (Double.lit 700 1)) x = true)
    (hhi : le x (Double.lit 700 1) = true) :
    x.expo ≠ 2047 ∧ |x.toRat| ≤ 700 ∧ gt x EXP_LIMIT = false ∧
      lt x (neg EXP_LIMIT) = false := by
  rw [le_iff] at hlo hhi
  have hS := scale1_posQ
  have h1 := sval_lit_700
  have h2 := sval_700_lt_EXP_LIMIT
  obtain ⟨_, _, hlo3⟩ := hlo
  obtain ⟨_, _, hhi3⟩ := hhi
  rw [sval_neg] at hlo3
  have hux : x.umag ≤ 700 * scale1 := by
    have := natAbs_sval x
    omega
  refine ⟨expo_ne_of_umag_lt x (Nat.lt_of_le_of_lt hux lit_700_lt_infMag), ?_, ?_, ?_⟩
  · rw [abs_toRat, div_le_iff₀ hS]
    exact_mod_cast hux
  · rw [Bool.eq_false_iff]
    intro h
    rw [gt, lt_iff] at h
    omega
  · rw [Bool.eq_false_iff]
    intro h
    rw [lt_iff, sval_neg] at h
    omega

/-- A real number assembled from its approximations: the inequality behind the
relative error of `fast_exp`. -/
theorem rel_error_assemble (R a F T Ev g p : ℝ) (hp : 0 < p) (hEv : 0 < Ev)
    (f1 : |R - a * p| ≤ |a| * p / 2 ^ 53) (ha : |a| ≤ 8)
    (f2 : |a - F| ≤ 14 / 10 ^ 12) (f3 : |F - T| ≤ 32 / 10 ^ 13) (f4 : |Ev - T| ≤ 2 / 10 ^ 13)
    (f5 : |g - 1| ≤ 7 / 10 ^ 13) (f7 : 1 / 5 ≤ F) :
    |R - Ev * g * p| / (Ev * g * p) < 1 / 10 ^ 9 := by
  have hg : 1 - 7 / 10 ^ 13 ≤ g := by
    have := (abs_le.mp f5).1
    linarith
  have hgpos : 0 < g := by linarith
  have hEvlo : 19 / 100 ≤ Ev := by
    have h3 := (abs_le.mp f3).2
    have h4 := (abs_le.mp f4).1
    linarith
  have hden : 0 < Ev * g * p := mul_pos (mul_pos hEv hgpos) hp
  rw [div_lt_iff₀ hden]
  have e : R - Ev * g * p
      = (R - a * p) + p * (a - F) + p * (F - T) + p * (T - Ev) + p * (Ev * (1 - g)) := by ring
  have b1 : |R - a * p| ≤ p * (8 / 2 ^ 53) := by
    refine le_trans f1 ?_
    have : |a| * p ≤ 8 * p := mul_le_mul_of_nonneg_right ha (le_of_lt hp)
    calc |a| * p / 2 ^ 53 ≤ 8 * p / 2 ^ 53 := div_le_div_of_nonneg_right this (by positivity)
      _ = p * (8 / 2 ^ 53) := by ring
  have b2 : |p * (a - F)| ≤ p * (14 / 10 ^ 12) := by
    rw [abs_mul, abs_of_pos hp]
    exact mul_le_mul_of_nonneg_left f2 (le_of_lt hp)
  have b3 : |p * (F - T)| ≤ p * (32 / 10 ^ 13) := by
    rw [abs_mul, abs_of_pos hp]
    exact mul_le_mul_of_nonneg_left f3 (le_of_lt hp)
  have b4 : |p * (T - Ev)| ≤ p * (2 / 10 ^ 13) := by
    rw [abs_mul, abs_of_pos hp, abs_sub_comm]
    exact mul_le_mul_of_nonneg_left f4 (le_of_lt hp)
  have b5 : |p * (Ev * (1 - g))| ≤ p * (Ev * (7 / 10 ^ 13)) := by
    rw [abs_mul, abs_of_pos hp, abs_mul, abs_of_pos hEv, abs_sub_comm]
    exact mul_le_mul_of_nonneg_left (mul_le_mul_of_nonneg_left f5 (le_of_lt hEv)) (le_of_lt hp)
  have hsum : |R - Ev * g * p|
      ≤ p * (8 / 2 ^ 53 + 14 / 10 ^ 12 + 32 / 10 ^ 13 + 2 / 10 ^ 13 + Ev * (7 / 10 ^ 13)) := by
    rw [e]
    have t1 := abs_add ((R - a * p) + p * (a - F) + p * (F - T) + p * (T - Ev))
      (p * (Ev * (1 - g)))
    have t2 := abs_add ((R - a * p) + p * (a - F) + p * (F - T)) (p * (T - Ev))
    have t3 := abs_add ((R - a * p) + p * (a - F)) (p * (F - T))
    have t4 := abs_add (R - a * p) (p * (a - F))
    have e2 : p * (8 / 2 ^ 53 + 14 / 10 ^ 12 + 32 / 10 ^ 13 + 2 / 10 ^ 13 + Ev * (7 / 10 ^ 13))
        = p * (8 / 2 ^ 53) + p * (14 / 10 ^ 12) + p * (32 / 10 ^ 13) + p * (2 / 10 ^ 13)
          + p * (Ev * (7 / 10 ^ 13)) := by ring
    rw [e2]
    linarith
  have hK : 8 / 2 ^ 53 + 14 / 10 ^ 12 + 32 / 10 ^ 13 + 2 / 10 ^ 13 + Ev * (7 / 10 ^ 13)
      < 1 / 10 ^ 9 * (Ev * (1 - 7 / 10 ^ 13)) := by
    norm_num
    linarith
  calc |R - Ev * g * p|
      ≤ p * (8 / 2 ^ 53 + 14 / 10 ^ 12 + 32 / 10 ^ 13 + 2 / 10 ^ 13 + Ev * (7 / 10 ^ 13)) := hsum
    _ < p * (1 / 10 ^ 9 * (Ev * (1 - 7 / 10 ^ 13))) := mul_lt_mul_of_pos_left hK hp
    _ ≤ p * (1 / 10 ^ 9 * (Ev * g)) := by
        apply mul_le_mul_of_nonneg_left _ (le_of_lt hp)
        apply mul_le_mul_of_nonneg_left _ (by norm_num)
        exact mul_le_mul_of_nonneg_left hg (le_of_lt hEv)
    _ = 1 / 10 ^ 9 * (Ev * g * p) := by ring

/-- C4. For every double `x` with `-700 <= x <= 700`, the relative error of
`fast_exp(x)` against the real exponential of `x` is below `1e-9`. -/
theorem fast_exp_rel_error (x : Double) (hlo : le (neg (Double.lit 700 1)) x = true)
    (hhi : le x (Double.lit 700 1) = true) :
    (fast_exp x).isFinite = true ∧
      |((fast_exp x).toRat : ℝ) - Real.exp (x.toRat : ℝ)| / Real.exp (x.toRat : ℝ)
        < 1 / 10 ^ 9 := by
  obtain ⟨hfin, hX, hgt, hlt⟩ := range_700 x hlo hhi
  obtain ⟨i, hi, hn, hi1, hi2, hi3, hr⟩ := fast_exp_reduce_appr x hfin hX
  have hv := reduced_range x.toRat i hi1 hi2 hi3
  have hr' : Appr (fast_exp_reduce x) (x.toRat - (i : ℚ) * qC1 - (i : ℚ) * qC2) (104 / 100)
      (1 / 10 ^ 12) := ⟨hr.1, hr.2.1, hv⟩
  have hF := fast_exp_poly_appr _ _ hr'
  have hres : fast_exp x
      = mul (add one (mul two (fast_exp_ratio (fast_exp_reduce x)))) (fast_exp_scale i) := by
    unfold fast_exp
    simp only [hgt, hlt, hn, Bool.false_eq_true, if_false]
  have hFlow := expF_lower _ hv
  have hFT := expF_sub_expT _ hv
  have hET := exp_sub_expT _ hv
  have haF := hF.2.1
  have hahi : |(add one (mul two (fast_exp_ratio (fast_exp_reduce x)))).toRat| ≤ 8 :=
    le_trans hF.abs_toRat_le (by norm_num)
  have halo : 1 / 8 ≤ |(add one (mul two (fast_exp_ratio (fast_exp_reduce x)))).toRat| := by
    have h1 := (abs_le.mp haF).1
    have h2 : (1 : ℚ) / 8 ≤ (add one (mul two (fast_exp_ratio (fast_exp_reduce x)))).toRat := by
      linarith
    exact le_trans h2 (le_abs_self _)
  obtain ⟨hrfin, herr⟩ := mul_scale_error _ i hi1 hi2 hF.1 halo hahi
  rw [← hres] at herr hrfin
  refine ⟨isFinite_of_expo _ hrfin, ?_⟩
  generalize (add one (mul two (fast_exp_ratio (fast_exp_reduce x)))).toRat = a at *
  -- the real-number side
  have hXv : (x.toRat : ℝ)
      = ((x.toRat - (i : ℚ) * qC1 - (i : ℚ) * qC2 : ℚ) : ℝ) + (i : ℝ) * ((qC1 + qC2 : ℚ) : ℝ) := by
    push_cast
    ring
  rw [exp_scale_split _ _ _ i hXv]
  generalize x.toRat - (i : ℚ) * qC1 - (i : ℚ) * qC2 = v at *
  have f1 : |((fast_exp x).toRat : ℝ) - (a : ℝ) * (2 : ℝ) ^ i|
      ≤ |(a : ℝ)| * (2 : ℝ) ^ i / 2 ^ 53 := by
    have h3 : ((|(fast_exp x).toRat - a * (2 : ℚ) ^ i| : ℚ) : ℝ)
        ≤ ((|a| * (2 : ℚ) ^ i / 2 ^ 53 : ℚ) : ℝ) := by exact_mod_cast herr
    push_cast at h3
    exact h3
  have f2 : |(a : ℝ) - ((expF v : ℚ) : ℝ)| ≤ 14 / 10 ^ 12 := by
    have h3 : ((|a - expF v| : ℚ) : ℝ) ≤ ((14 / 10 ^ 12 : ℚ) : ℝ) := by exact_mod_cast haF
    push_cast at h3
    exact h3
  have f3 : |((expF v : ℚ) : ℝ) - ((expT v : ℚ) : ℝ)| ≤ 32 / 10 ^ 13 := by
    have h3 : ((|expF v - expT v| : ℚ) : ℝ) ≤ ((32 / 10 ^ 13 : ℚ) : ℝ) := by exact_mod_cast hFT
    push_cast at h3
    exact h3
  have f7 : (1 : ℝ) / 5 ≤ ((expF v : ℚ) : ℝ) := by
    have h3 : (((1 / 5 : ℚ)) : ℝ) ≤ ((expF v : ℚ) : ℝ) := by exact_mod_cast hFlow
    push_cast at h3
    exact h3
  have ha8 : |(a : ℝ)| ≤ 8 := by
    have h3 : ((|a| : ℚ) : ℝ) ≤ ((8 : ℚ) : ℝ) := by exact_mod_cast hahi
    push_cast at h3
    exact h3
  have f5 : |Real.exp ((i : ℝ) * (((qC1 + qC2 : ℚ) : ℝ) - Real.log 2)) - 1| ≤ 7 / 10 ^ 13 := by
    have hl := log_two_near
    rw [abs_sub_comm] at hl
    have hiq : |(i : ℝ)| ≤ 1011 := by
      rw [abs_le]
      constructor
      · exact_mod_cast hi1
      · exact_mod_cast hi2
    have hy : |(i : ℝ) * (((qC1 + qC2 : ℚ) : ℝ) - Real.log 2)| ≤ 1011 * (3 / 10 ^ 16) := by
      rw [abs_mul]
      exact mul_le_mul hiq hl (abs_nonneg _) (by norm_num)
    have h1 := Real.abs_exp_sub_one_le (le_trans hy (by norm_num))
    refine le_trans h1 ?_
    calc 2 * |(i : ℝ) * (((qC1 + qC2 : ℚ) : ℝ) - Real.log 2)|
        ≤ 2 * (1011 * (3 / 10 ^ 16)) := mul_le_mul_of_nonneg_left hy (by norm_num)
      _ ≤ 7 / 10 ^ 13 := by norm_num
  exact rel_error_assemble _ _ _ _ _ _ _ (zpow_pos (by norm_num) i) (Real.exp_pos _)
    f1 ha8 f2 f3 hET f5 f7

theorem fast_exp_rel_error_witness :
    (fast_exp (neg one)).isFinite = true ∧
      |((fast_exp (neg one)).toRat : ℝ) - Real.exp ((neg one).toRat : ℝ)|
        / Real.exp ((neg one).toRat : ℝ) < 1 / 10 ^ 9 :=
  fast_exp_rel_error (neg one) (by decide!) (by decide!)

end vdt
